import Mathlib

/-!
Verification development for the tag reconciliation engine of the
`update-tags-action` repository (current revision: `tags.ts` with per-tag
annotation messages and dry-run support, plus `derive.ts`).

The embedding strategy:

* All string manipulation is done through small structural-recursive
  helpers over `List Char` (`splitChar`, `strTrim`, ...) whose behaviour
  matches the JavaScript string operations used by the source
  (`String.prototype.split` on a one-character separator,
  `String.prototype.trim` on ASCII whitespace, `Array.prototype.join`).
  This keeps every definition kernel-reducible, so concrete runs can be
  settled with `decide`.

* The hosting provider (GitHub REST API, an external collaborator of the
  repository, specified at its interface boundary in section 6 of the
  spec) is modelled as a record of response functions (`Provider`) for the
  read half, and as an explicit object/ref store (`Remote`) for the
  mutating half.  Tag-object SHAs handed out by the modelled `createTag`
  endpoint are generated from a counter (`Remote.nextId`), mirroring the
  fact that real object ids are fresh.

* JavaScript insertion-ordered objects (`tagRefs`, `tagAnnotations`) are
  modelled as insertion-ordered association lists (`setA` keeps the
  original position of a key on overwrite, as JS objects do), and the
  `Set` of unique refs as an insertion-ordered duplicate-free list
  (`insertU`).

* Error messages are reproduced from the source up to the surrounding
  single-quote characters, which are dropped from the modelled strings.
-/

/-! ## Kernel-reducible string helpers -/

/-- Split a character list on a separator character; mirrors the semantics
of JavaScript `String.prototype.split` with a one-character separator
(`"".split(c)` gives `[""]`, separators at the ends give empty pieces). -/
def splitChar (c : Char) : List Char → List (List Char)
  | [] => [[]]
  | a :: rest =>
    let r := splitChar c rest
    if a = c then [] :: r
    else
      match r with
      | [] => [[a]]
      | h :: t => (a :: h) :: t

/-- ASCII whitespace test used by `strTrim`. -/
def isWS (c : Char) : Bool :=
  c == ' ' || c == '\t' || c == '\n' || c == '\r'

/-- Trim leading and trailing ASCII whitespace from a character list. -/
def trimChars (l : List Char) : List Char :=
  ((l.dropWhile isWS).reverse.dropWhile isWS).reverse

/-- Trim a string; models JavaScript `String.prototype.trim` on ASCII input. -/
def strTrim (s : String) : String :=
  String.mk (trimChars s.data)

/-- Join character lists with a separator list; models
`Array.prototype.join`. -/
def joinWith (sep : List Char) : List (List Char) → List Char
  | [] => []
  | [x] => x
  | x :: y :: rest => x ++ sep ++ joinWith sep (y :: rest)

/-- `s.split(":")` from JavaScript. -/
def strSplitColon (s : String) : List String :=
  (splitChar ':' s.data).map String.mk

/-- `parts.join(":")` from JavaScript. -/
def strJoinColon (ls : List String) : String :=
  String.mk (joinWith [':'] (ls.map String.data))

/-- `reasons.join(", ")` from JavaScript. -/
def strJoinCommaSpace (ls : List String) : String :=
  String.mk (joinWith [',', ' '] (ls.map String.data))

/-! ## Ordered association lists and insertion-ordered sets

JavaScript objects keyed by strings preserve insertion order (for
non-index-like keys), and assignment to an existing key keeps its original
position; `Set` preserves insertion order and ignores re-insertion.  (No
claim depends on the special JS enumeration order of integer-like keys.) -/

/-- Lookup in an association list (first match). -/
def lookupA {α : Type} : List (String × α) → String → Option α
  | [], _ => none
  | (k, v) :: rest, key => if k = key then some v else lookupA rest key

/-- Set a key in an association list, keeping the original position of an
existing key (JS object assignment). -/
def setA {α : Type} : List (String × α) → String → α → List (String × α)
  | [], k, v => [(k, v)]
  | (k', v') :: rest, k, v =>
    if k' = k then (k', v) :: rest else (k', v') :: setA rest k v

/-- Insert into an insertion-ordered duplicate-free list (JS `Set.add`). -/
def insertU (l : List String) (x : String) : List String :=
  if x ∈ l then l else l ++ [x]

/-- Keys of an association list. -/
def keysOf {α : Type} (l : List (String × α)) : List String :=
  l.map Prod.fst

/-- Concatenate a list of lists (structural; used instead of `flatMap`). -/
def concatAll {α : Type} : List (List α) → List α
  | [] => []
  | l :: ls => l ++ concatAll ls

/-- `mapM` over `Except`, written structurally: the result is the list of
successes, or the first error in list order. -/
def mapExcept {α β ε : Type} (f : α → Except ε β) : List α → Except ε (List β)
  | [] => .ok []
  | x :: xs =>
    match f x with
    | .error e => .error e
    | .ok y =>
      match mapExcept f xs with
      | .error e => .error e
      | .ok ys => .ok (y :: ys)

/-- Decidable equality for `Except` results. -/
instance instDecEqExcept {ε α : Type} [DecidableEq ε] [DecidableEq α] :
    DecidableEq (Except ε α) := fun a b =>
  match a, b with
  | .ok x, .ok y =>
    if h : x = y then .isTrue (by rw [h])
    else .isFalse (by intro he; injection he; exact h (by assumption))
  | .ok _, .error _ => .isFalse (by intro he; injection he)
  | .error _, .ok _ => .isFalse (by intro he; injection he)
  | .error e, .error f =>
    if h : e = f then .isTrue (by rw [h])
    else .isFalse (by intro he; injection he; exact h (by assumption))

/-! ## Data model (src/tags.ts, current revision) -/

/-- Error shape of a provider API failure: an optional HTTP status (the
source checks `'status' in error`, so errors without a status are
represented with `none`) and a message. -/
structure ApiError where
  status : Option Nat
  message : String
deriving DecidableEq, Repr

/-- Response of `git.getRef`: the target object's SHA and its type
(`"commit"` or `"tag"`). -/
structure RefObj where
  sha : String
  type : String
deriving DecidableEq, Repr

/-- Response of `git.getTag` (and the payload of a stored annotated tag
object): the tag message and the SHA of the commit the object wraps. -/
structure TagObjData where
  message : String
  objectSha : String
deriving DecidableEq, Repr

/-- The read half of the hosting provider's API, as used by planning
(spec section 6): ref-to-commit resolution, ref lookup, tag-object
dereferencing. -/
structure Provider where
  getCommit : String → Except ApiError String
  getRef : String → Except ApiError RefObj
  getTag : String → Except ApiError TagObjData

/-- `ExistingTagInfo` from src/tags.ts (the optional `annotation` field is
an `Option`). -/
structure ExistingTagInfo where
  commitSHA : String
  isAnnotated : Bool
  annot : Option String
deriving DecidableEq, Repr

/-- `when_exists` mode from src/inputs.ts. -/
inductive WhenExistsMode
  | update
  | skip
  | fail
deriving DecidableEq, Repr

/-- The validated inputs consumed by `planTagOperations`
(src/inputs.ts: `tags`, `defaultRef`, `whenExists`, `annotation`,
`dryRun`, `owner`, `repo`). -/
structure Inputs where
  tags : List String
  defaultRef : String
  whenExists : WhenExistsMode
  annot : String
  dryRun : Bool
  owner : String
  repo : String
deriving DecidableEq, Repr

/-- `BaseOperation` from src/tags.ts. -/
structure BaseOperation where
  name : String
  ref : String
  sha : String
  owner : String
  repo : String
deriving DecidableEq, Repr

/-- Reason carried by a `SkipOperation`. -/
inductive SkipReason
  | when_exists_skip
  | already_matches
deriving DecidableEq, Repr

/-- `TagOperation` from src/tags.ts: the discriminated union of planned
operations. -/
inductive TagOperation
  | create (base : BaseOperation) (annot : String)
  | update (base : BaseOperation) (annot : String) (existingSHA : String)
      (existingIsAnnotated : Bool) (reasons : List String)
  | skip (base : BaseOperation) (existingIsAnnotated : Bool)
      (reason : SkipReason)
deriving DecidableEq, Repr

/-- The tag name an operation is about. -/
def TagOperation.opName : TagOperation → String
  | .create base _ => base.name
  | .update base _ _ _ _ => base.name
  | .skip base _ _ => base.name

/-- Recognize a `Skip` with reason `already_matches`. -/
def TagOperation.isSkipAlready : TagOperation → Bool
  | .skip _ _ .already_matches => true
  | _ => false

/-- Recognize any `Skip`. -/
def TagOperation.isSkip : TagOperation → Bool
  | .skip _ _ _ => true
  | _ => false

/-- Structured counterpart of the `Error` values thrown by the source.
`raw` is an API error rethrown unchanged (the `else { throw error }`
branch of the existence-check catch). -/
inductive PlanError
  | invalidTag (tag : String)
  | missingRef
  | duplicateTag (name r1 r2 : String)
  | refResolutionFailed (ref : String) (cause : ApiError)
  | tagCheckFailed (name : String) (cause : ApiError)
  | tagAlreadyExists (name : String)
  | raw (e : ApiError)
deriving DecidableEq, Repr

/-- The message string of each error, mirroring the source strings (with
the surrounding single-quote characters dropped). -/
def PlanError.message : PlanError → String
  | .invalidTag tag => "Invalid tag: " ++ tag
  | .missingRef => "Missing ref: provide ref input or specify per-tag ref"
  | .duplicateTag name r1 r2 =>
      "Duplicate tag " ++ name ++ " with different refs: " ++ r1 ++ " and " ++ r2
  | .refResolutionFailed ref cause =>
      "Failed to resolve ref " ++ ref ++ " to a SHA: " ++ cause.message
  | .tagCheckFailed name cause =>
      "Failed to check if tag " ++ name ++ " exists: " ++ cause.message
  | .tagAlreadyExists name => "Tag " ++ name ++ " already exists."
  | .raw e => e.message

/-! ## Remote calls (trace of provider interactions) -/

/-- One remote API call, as recorded in traces. -/
inductive Call
  | getCommit (ref : String)
  | getRef (ref : String)
  | getTag (sha : String)
  | createTag (tag message objectSha : String)
  | createRef (ref sha : String)
  | updateRef (ref sha : String)
deriving DecidableEq, Repr

/-- Mutating calls are `createTag`, `createRef` and `updateRef`. -/
def Call.isMutation : Call → Bool
  | .createTag _ _ _ => true
  | .createRef _ _ => true
  | .updateRef _ _ => true
  | _ => false

/-- Project the ref out of a `getCommit` call. -/
def callGetCommitRef : Call → Option String
  | .getCommit r => some r
  | _ => none

/-- The refs of all `getCommit` calls in a trace. -/
def getCommitRefs (calls : List Call) : List String :=
  calls.filterMap callGetCommitRef

/-! ## Tag specification parsing (src/tags.ts lines 66-103) -/

/-- Accumulated parse state: the `Set` of unique refs, the name-to-ref
object, and the name-to-annotation object from `planTagOperations`. -/
structure ParseState where
  uniqueRefs : List String
  tagRefs : List (String × String)
  tagAnnots : List (String × String)
deriving DecidableEq, Repr

/-- Record one well-formed tag entry: `tagRefs[tagName] = ref`,
`tagAnnotations[tagName] = tagAnnotation` only when non-empty,
`uniqueRefs.add(ref)`. -/
def ParseState.record (st : ParseState) (tagName ref tagAnnot : String) :
    ParseState :=
  { uniqueRefs := insertU st.uniqueRefs ref
    tagRefs := setA st.tagRefs tagName ref
    tagAnnots :=
      if tagAnnot ≠ "" then setA st.tagAnnots tagName tagAnnot
      else st.tagAnnots }

/-- Process one raw tag spec entry (the body of the `for` loop of
`planTagOperations`): split on `:`, take the trimmed name and ref, join
the remaining parts back with colons as the annotation, validate, detect
duplicate names with different refs. -/
def parseTagEntry (defaultRef : String) (st : ParseState) (tag : String) :
    Except PlanError ParseState :=
  let parts := strSplitColon tag
  let tagName := strTrim (parts.getD 0 "")
  let tagRef := strTrim (parts.getD 1 "")
  let tagAnnot := strTrim (strJoinColon (parts.drop 2))
  if tagName = "" then
    if tagRef ≠ "" ∨ tagAnnot ≠ "" then .error (.invalidTag tag)
    else .ok st
  else
    let ref := if tagRef ≠ "" then tagRef else defaultRef
    if ref = "" then .error .missingRef
    else
      match lookupA st.tagRefs tagName with
      | some r0 =>
        if r0 ≠ ref then .error (.duplicateTag tagName r0 ref)
        else .ok (st.record tagName ref tagAnnot)
      | none => .ok (st.record tagName ref tagAnnot)

/-- The parse loop over all entries. -/
def parseTagsLoop (defaultRef : String) (st : ParseState) :
    List String → Except PlanError ParseState
  | [] => .ok st
  | t :: rest =>
    match parseTagEntry defaultRef st t with
    | .error e => .error e
    | .ok st' => parseTagsLoop defaultRef st' rest

/-- Parse all tag spec entries starting from the empty state. -/
def parseTagSpecs (tags : List String) (defaultRef : String) :
    Except PlanError ParseState :=
  parseTagsLoop defaultRef ⟨[], [], []⟩ tags

/-! ## Planning (src/tags.ts lines 105-205, 264-324, 439-497) -/

/-- `compareTagState` from src/tags.ts: whether the existing tag's commit
and annotation match the desired state. -/
def compareTagState (sha annot : String) (existing : ExistingTagInfo) :
    Bool × Bool :=
  let isAnn := existing.isAnnotated
  let commitMatches := existing.commitSHA == sha
  let annotMatches :=
    (isAnn && annot != "" && existing.annot == some annot) ||
    (!isAnn && annot == "")
  (commitMatches, annotMatches)

/-- `getUpdateReasons` from src/tags.ts. -/
def getUpdateReasons (sha annot : String) (existing : ExistingTagInfo) :
    List String :=
  let cm := (compareTagState sha annot existing).1
  let am := (compareTagState sha annot existing).2
  (if !cm then ["commit SHA " ++ sha ++ " (was " ++ existing.commitSHA ++ ")"]
   else []) ++
  (if !am && annot != "" then
    (if existing.isAnnotated then ["annotation message changed"]
     else ["adding annotation"])
   else if !am && annot == "" && existing.isAnnotated then
    ["removing annotation"]
   else [])

/-- `fetchTagInfo` from src/tags.ts: fetch the ref `tags/<name>`, and when
it points at a tag object, dereference it to the underlying commit and
message. -/
def fetchTagInfo (p : Provider) (tagName : String) :
    Except ApiError ExistingTagInfo :=
  match p.getRef ("tags/" ++ tagName) with
  | .error e => .error e
  | .ok obj =>
    if obj.type ≠ "tag" then
      .ok { commitSHA := obj.sha, isAnnotated := false, annot := none }
    else
      match p.getTag obj.sha with
      | .error e => .error e
      | .ok t =>
        .ok { commitSHA := t.objectSha, isAnnotated := true
              annot := some t.message }

/-- The existence check of `planTagOperations` (the `try`/`catch` around
`fetchTagInfo`, lines 122-146): a 404 status means "does not exist yet";
any other status is wrapped as a check failure naming the tag; an error
without a status is rethrown unchanged; under the `fail` policy an
existing tag raises `Tag ... already exists.` (which carries no status and
passes through the catch unchanged). -/
def checkExistingTag (p : Provider) (whenExists : WhenExistsMode)
    (tagName : String) : Except PlanError (Option ExistingTagInfo) :=
  match fetchTagInfo p tagName with
  | .ok info =>
    if whenExists = .fail then .error (.tagAlreadyExists tagName)
    else .ok (some info)
  | .error e =>
    match e.status with
    | some s =>
      if s = 404 then .ok none else .error (.tagCheckFailed tagName e)
    | none => .error (.raw e)

/-- The per-tag decision of `planTagOperations` (lines 148-200), given the
fetched existing state: plan a create when absent, a policy skip under
`skip`, and otherwise compare and plan `already_matches` skip or update. -/
def planOneTag (whenExists : WhenExistsMode) (base : BaseOperation)
    (annot : String) (existing : Option ExistingTagInfo) : TagOperation :=
  match existing with
  | none => .create base annot
  | some ex =>
    if whenExists = .skip then .skip base ex.isAnnotated .when_exists_skip
    else
      let cm := (compareTagState base.sha annot ex).1
      let am := (compareTagState base.sha annot ex).2
      if cm && am then .skip base ex.isAnnotated .already_matches
      else .update base annot ex.commitSHA ex.isAnnotated
        (getUpdateReasons base.sha annot ex)

/-- `resolveRefToSha` mapped over the unique refs (lines 105-112, 310-324):
the result pairs each ref with its commit SHA; a failure is wrapped as a
ref-resolution error.  (All `getCommit` calls of the wave are issued by
`Promise.all` before a rejection propagates; the trace side of this is
accounted in `planTagOperations` below.) -/
def resolveRefs (getCommit : String → Except ApiError String) :
    List String → Except PlanError (List (String × String))
  | [] => .ok []
  | r :: rest =>
    match getCommit r with
    | .error e => .error (.refResolutionFailed r e)
    | .ok sha =>
      match resolveRefs getCommit rest with
      | .error e => .error e
      | .ok l => .ok ((r, sha) :: l)

/-- The effective annotation of a tag:
`tagAnnotations[tagName] || inputs.annotation`. -/
def effAnnot (st : ParseState) (defAnnot : String) (tagName : String) :
    String :=
  let a0 := (lookupA st.tagAnnots tagName).getD ""
  if a0 ≠ "" then a0 else defAnnot

/-- The body of the per-tag `Promise.all` closure of `planTagOperations`:
look up the resolved SHA and effective annotation, check existence, and
decide the operation. -/
def planEntry (p : Provider) (inputs : Inputs) (st : ParseState)
    (refSHAs : List (String × String)) (nr : String × String) :
    Except PlanError TagOperation :=
  let sha := (lookupA refSHAs nr.2).getD ""
  let annot := effAnnot st inputs.annot nr.1
  match checkExistingTag p inputs.whenExists nr.1 with
  | .error e => .error e
  | .ok existing =>
    .ok (planOneTag inputs.whenExists
      ⟨nr.1, nr.2, sha, inputs.owner, inputs.repo⟩ annot existing)

/-- The read calls `fetchTagInfo` issues for one tag. -/
def fetchCalls (p : Provider) (tagName : String) : List Call :=
  Call.getRef ("tags/" ++ tagName) ::
    match p.getRef ("tags/" ++ tagName) with
    | .ok obj => if obj.type = "tag" then [Call.getTag obj.sha] else []
    | .error _ => []

/-- `planTagOperations` from src/tags.ts, paired with the trace of remote
calls it issues: parse (no calls), resolve every unique ref exactly once
(all calls of the wave are issued even when one fails), then fetch
existing state for every desired tag (again a full wave) and decide each
operation.  Planning never issues a mutating call. -/
def planTagOperations (p : Provider) (inputs : Inputs) :
    List Call × Except PlanError (List TagOperation) :=
  match parseTagSpecs inputs.tags inputs.defaultRef with
  | .error e => ([], .error e)
  | .ok st =>
    let resolveCalls := st.uniqueRefs.map Call.getCommit
    match resolveRefs p.getCommit st.uniqueRefs with
    | .error e => (resolveCalls, .error e)
    | .ok refSHAs =>
      (resolveCalls ++ concatAll (st.tagRefs.map (fun nr => fetchCalls p nr.1)),
       mapExcept (planEntry p inputs st refSHAs) st.tagRefs)

/-! ## Remote state and execution (src/tags.ts lines 207-429)

`Remote` models the provider's own store of tag refs and annotated tag
objects (the mutating half of the collaborator contract of spec
section 6).  Tag-object SHAs handed out by the modelled `createTag`
endpoint are fresh: they are generated from the `nextId` counter. -/

/-- The synthetic SHA of the `n`-th created tag object. -/
def objKey (n : Nat) : String :=
  "tagobj-" ++ String.mk (List.replicate n 'x')

/-- A string of the shape handed out for tag objects. -/
def IsObjSha (s : String) : Prop :=
  ∃ t, s = "tagobj-" ++ t

/-- The provider-side store: tag refs (name to target object SHA),
annotated tag objects (SHA to payload), and the freshness counter. -/
structure Remote where
  refs : List (String × String)
  tagObjs : List (String × TagObjData)
  nextId : Nat
deriving DecidableEq, Repr

/-- Every stored tag-object SHA was generated by the counter. -/
def Remote.WFObjs (σ : Remote) : Prop :=
  ∀ p ∈ σ.tagObjs, ∃ k, k < σ.nextId ∧ p.1 = objKey k

/-- Store a fresh annotated tag object; returns its SHA
(`git.createTag` response). -/
def Remote.addObj (σ : Remote) (o : TagObjData) : Remote × String :=
  let s := objKey σ.nextId
  ({ σ with tagObjs := (s, o) :: σ.tagObjs, nextId := σ.nextId + 1 }, s)

/-- Point the tag ref `name` at `sha` (`git.createRef` / forced
`git.updateRef` both move the ref). -/
def Remote.setRef (σ : Remote) (name sha : String) : Remote :=
  { σ with refs := setA σ.refs name sha }

/-- Find the ref entry whose full name `tags/<key>` equals `r`. -/
def findTagRef : List (String × String) → String → Option (String × String)
  | [], _ => none
  | (k, v) :: rest, r =>
    if "tags/" ++ k = r then some (k, v) else findTagRef rest r

/-- `git.getRef` against the modelled store: 404 when absent; the target's
type is `"tag"` exactly when its SHA is a stored tag object. -/
def stateGetRef (σ : Remote) (r : String) : Except ApiError RefObj :=
  match findTagRef σ.refs r with
  | none => .error ⟨some 404, "Not Found"⟩
  | some kv =>
    .ok ⟨kv.2, if (lookupA σ.tagObjs kv.2).isSome then "tag" else "commit"⟩

/-- `git.getTag` against the modelled store. -/
def stateGetTag (σ : Remote) (s : String) : Except ApiError TagObjData :=
  match lookupA σ.tagObjs s with
  | none => .error ⟨some 404, "Not Found"⟩
  | some o => .ok o

/-- The full provider view of a remote state, given the ref-to-commit
resolution function (`repos.getCommit` is independent of tag refs). -/
def Remote.provider (σ : Remote) (gc : String → Except ApiError String) :
    Provider :=
  ⟨gc, stateGetRef σ, stateGetTag σ⟩

/-- `fetchTagInfo` specialised to a remote state. -/
def stateFetch (σ : Remote) (name : String) :
    Except ApiError ExistingTagInfo :=
  fetchTagInfo (Remote.provider σ (fun _ => .error ⟨none, "unused"⟩)) name

/-- `resolveTargetSHA` from src/tags.ts composed with the provider model:
for a lightweight tag return the commit SHA with no calls; otherwise
create an annotated tag object and return its SHA. -/
def resolveTargetSHA (σ : Remote) (tagName commitSha annot : String) :
    Remote × List Call × String :=
  if annot = "" then (σ, [], commitSha)
  else
    let r := σ.addObj ⟨annot, commitSha⟩
    (r.1, [Call.createTag tagName annot commitSha], r.2)

/-- `executeTagOperation` from src/tags.ts composed with the provider
model: returns the new remote state, the mutating calls issued, and the
log lines written through the (dry-run-prefixed) logger.  In dry-run mode
execution returns right after logging, before any call.  (Log strings
reproduce the source up to the dropped single quotes.) -/
def executeTagOperation (dryRun : Bool) (op : TagOperation) (σ : Remote) :
    Remote × List Call × List String :=
  let pfx := if dryRun then "[dry-run] " else ""
  match op with
  | .skip base ia reason =>
    let msg :=
      match reason with
      | .when_exists_skip => "Tag " ++ base.name ++ " exists, skipping."
      | .already_matches =>
        "Tag " ++ base.name ++ " already exists with desired commit SHA "
          ++ base.sha ++ (if ia then " (annotated)." else ".")
    (σ, [], [pfx ++ msg])
  | .create base annot =>
    let verb := if dryRun then "Would create" else "Creating"
    let msg := verb ++ " tag " ++ base.name ++ " at commit SHA "
      ++ base.sha ++ (if annot ≠ "" then " (annotated)." else ".")
    if dryRun then (σ, [], [pfx ++ msg])
    else
      let r := resolveTargetSHA σ base.name base.sha annot
      (r.1.setRef base.name r.2.2,
       r.2.1 ++ [Call.createRef ("refs/tags/" ++ base.name) r.2.2],
       [pfx ++ msg])
  | .update base annot existingSHA existingIsAnn reasons =>
    let verb := if dryRun then "Would update" else "Updating"
    let msg :=
      if existingSHA == base.sha then
        verb ++ " tag " ++ base.name ++ ", "
          ++ strJoinCommaSpace reasons ++ "."
      else
        verb ++ " tag " ++ base.name
          ++ (if existingIsAnn then " (annotated)" else "") ++ " to "
          ++ strJoinCommaSpace reasons ++ "."
    if dryRun then (σ, [], [pfx ++ msg])
    else
      let r := resolveTargetSHA σ base.name base.sha annot
      (r.1.setRef base.name r.2.2,
       r.2.1 ++ [Call.updateRef ("tags/" ++ base.name) r.2.2],
       [pfx ++ msg])

/-- Execute a list of planned operations in order. -/
def execOps (dryRun : Bool) : List TagOperation → Remote →
    Remote × List Call × List String
  | [], σ => (σ, [], [])
  | op :: rest, σ =>
    let r1 := executeTagOperation dryRun op σ
    let r2 := execOps dryRun rest r1.1
    (r2.1, r1.2.1 ++ r2.2.1, r1.2.2 ++ r2.2.2)

/-- Modelled from the spec: the current revision's `main.ts` run wiring is
not among the sources (only earlier revisions of `main.ts` are), so the
plan-then-execute loop is modelled from spec sections 4.5 and 9: planning
resolves existence for all tags first, and operations are executed only
when the whole plan succeeded; a planning error aborts the run before any
mutation. -/
def runAction (gc : String → Except ApiError String) (inputs : Inputs)
    (σ : Remote) : Remote × List Call × Except PlanError (List TagOperation) :=
  match planTagOperations (Remote.provider σ gc) inputs with
  | (calls, .error e) => (σ, calls, .error e)
  | (calls, .ok ops) =>
    let r := execOps inputs.dryRun ops σ
    (r.1, calls ++ r.2.1, .ok ops)

/-! ## Version derivation (src/derive.ts)

`semver` and `Handlebars` are third-party collaborators of the
repository; they are modelled on the documented subset the source relies
on (spec section 4.1): strict `major.minor.patch[-prerelease][+build]`
parsing, and a template language of `\x7b\x7bvar\x7d\x7d` substitutions
with `#if`/`#unless` blocks whose truthiness is non-emptiness of the
substituted string (numeric components are stringified by
`renderTemplate`, which is why `0` is truthy). -/

/-- Parse a digit run as a number, rejecting leading zeros (strict
semver). -/
def parseNumStrict (s : String) : Option Nat :=
  if s.data ≠ [] ∧ s.data.all Char.isDigit ∧ (s = "0" ∨ s.data.head? ≠ some '0')
  then some (s.data.foldl (fun n c => n * 10 + (c.toNat - 48)) 0)
  else none

/-- Split a character list at the first occurrence of a separator
character; the second component keeps everything after it (which may
contain further separators), `none` when absent. -/
def splitFirst (c : Char) : List Char → List Char × Option (List Char)
  | [] => ([], none)
  | a :: rest =>
    if a = c then ([], some rest)
    else
      let r := splitFirst c rest
      (a :: r.1, r.2)

/-- `SemverContext` from src/derive.ts (`prefix` is named `pfx` here). -/
structure SemverContext where
  pfx : String
  major : Nat
  minor : Nat
  patch : Nat
  prerelease : String
  build : String
  version : String
deriving DecidableEq, Repr

/-- Derivation failure: the input was empty or not a valid semver. -/
inductive DeriveError
  | invalidVersion (input : String)
deriving DecidableEq, Repr

/-- `parseSemver` from src/derive.ts: trim, reject empty, strip one
leading `v`/`V` preserving its case, and parse the remainder as strict
semver (modelled `semver.parse`): `major.minor.patch`, an optional
prerelease after the first `-`, an optional build after the first `+`;
`version` is the normalized string without prefix and without build. -/
def parseSemver (input : String) : Except DeriveError SemverContext :=
  let trimmed := strTrim input
  if trimmed = "" then .error (.invalidVersion input)
  else
    let hasPfx := trimmed.data.head? = some 'v' ∨ trimmed.data.head? = some 'V'
    let pfx := if hasPfx then String.mk (trimmed.data.take 1) else ""
    let rest := if hasPfx then trimmed.data.drop 1 else trimmed.data
    let b := splitFirst '+' rest
    let core := splitFirst '-' b.1
    let pre := (core.2.getD []).asString
    let build := (b.2.getD []).asString
    match splitChar '.' core.1 with
    | [ma, mi, pa] =>
      match parseNumStrict (String.mk ma), parseNumStrict (String.mk mi),
          parseNumStrict (String.mk pa) with
      | some major, some minor, some patch =>
        .ok { pfx, major, minor, patch, prerelease := pre, build
              version := String.mk core.1 ++
                (if pre ≠ "" then "-" ++ pre else "") }
      | _, _, _ => .error (.invalidVersion input)
    | _ => .error (.invalidVersion input)

/-- The string context `renderTemplate` hands to the template engine:
numeric components stringified (so `0` renders and is truthy). -/
def ctxVars (ctx : SemverContext) : List (String × String) :=
  [("prefix", ctx.pfx), ("major", toString ctx.major),
   ("minor", toString ctx.minor), ("patch", toString ctx.patch),
   ("prerelease", ctx.prerelease), ("build", ctx.build),
   ("version", ctx.version)]

/-- Variable lookup in a template context; a missing variable renders as
the empty string. -/
def lookupVar (vars : List (String × String)) (name : String) : String :=
  (lookupA vars name).getD ""

/-- Split a character list on a two-character separator. -/
def splitTwo (a b : Char) : List Char → List (List Char)
  | [] => [[]]
  | [x] => [[x]]
  | x :: y :: rest =>
    if x = a ∧ y = b then
      [] :: splitTwo a b rest
    else
      match splitTwo a b (y :: rest) with
      | [] => [[x]]
      | h :: t => (x :: h) :: t

/-- Process one template chunk (the text between a `\x7b\x7b` and the next
one): interpret the tag before the first `\x7d\x7d`, then emit the literal
after it unless inside a suppressed conditional block.  The `Nat` state is
the suppression depth (0 = emitting). -/
def renderChunk (vars : List (String × String)) (st : Nat × String)
    (chunk : List Char) : Nat × String :=
  let parts := splitTwo '}' '}' chunk
  let tag := strTrim (String.mk (parts.getD 0 []))
  let lit := String.mk (joinWith ['}', '}'] (parts.drop 1))
  let depth := st.1
  let out := st.2
  if ("#if ".data).isPrefixOf tag.data then
    if depth > 0 then (depth + 1, out)
    else if lookupVar vars (strTrim (String.mk (tag.data.drop 4))) ≠ "" then
      (0, out ++ lit)
    else (1, out)
  else if ("#unless ".data).isPrefixOf tag.data then
    if depth > 0 then (depth + 1, out)
    else if lookupVar vars (strTrim (String.mk (tag.data.drop 8))) = "" then
      (0, out ++ lit)
    else (1, out)
  else if tag = "/if" ∨ tag = "/unless" then
    if depth ≤ 1 then (0, out ++ lit) else (depth - 1, out)
  else
    if depth > 0 then (depth, out)
    else (0, out ++ lookupVar vars tag ++ lit)

/-- `renderTemplate` from src/derive.ts over the modelled template engine:
split the template on `\x7b\x7b`, emit the leading literal, then process
each chunk. -/
def renderTemplate (template : String) (ctx : SemverContext) : String :=
  match splitTwo '{' '{' template.data with
  | [] => ""
  | c0 :: chunks =>
    (chunks.foldl (renderChunk (ctxVars ctx)) (0, String.mk c0)).2

/-- The CSV/newline splitting `deriveTags` applies to the rendered text
(modelled `csv-parse` with comma delimiter, trimming and relaxed column
count): split into lines, split each line on commas, trim every field. -/
def csvSplit (s : String) : List String :=
  if s = "" then []
  else concatAll ((splitChar '\n' s.data).map
    (fun line => (splitChar ',' line).map (fun f => strTrim (String.mk f))))

/-- `deriveTags` from src/derive.ts: parse the version, render the
template, split the result, and drop entries that are empty or equal to
the bare prefix. -/
def deriveTags (deriveFrom template : String) :
    Except DeriveError (List String) :=
  match parseSemver deriveFrom with
  | .error e => .error e
  | .ok ctx =>
    let rendered := renderTemplate template ctx
    .ok ((csvSplit rendered).filter (fun t => t.length > 0 && t != ctx.pfx))

/-! ## Specification-side definitions used by the claim statements -/

/-- The name component of a raw tag spec entry (first colon field,
trimmed), as the claims refer to it. -/
def entryName (t : String) : String :=
  strTrim ((strSplitColon t).getD 0 "")

/-- The annotation component of a raw tag spec entry (everything after the
second colon, colons preserved, trimmed), as the claims refer to it. -/
def entryAnnot (t : String) : String :=
  strTrim (strJoinColon ((strSplitColon t).drop 2))

/-- The last non-empty annotation component recorded for a name across the
raw entries, written from the words of claim C10: an occurrence with an
empty annotation component does not clear a previously recorded one. -/
def lastAnnot : List String → String → Option String
  | [], _ => none
  | t :: rest, n =>
    match lastAnnot rest n with
    | some a => some a
    | none =>
      if entryName t = n ∧ entryAnnot t ≠ "" then some (entryAnnot t)
      else none

/-- The annotation-match condition in the words of claim C1: the existing
tag is annotated, the desired annotation is non-empty and the messages
are equal; or the existing tag is lightweight and the desired annotation
is empty. -/
def annotMatchesSpec (a : String) (ex : ExistingTagInfo) : Prop :=
  (ex.isAnnotated = true ∧ a ≠ "" ∧ ex.annot = some a) ∨
  (ex.isAnnotated = false ∧ a = "")

/-- Invariants of the parse state established by the parse loop. -/
def ParseInv (st : ParseState) : Prop :=
  (keysOf st.tagRefs).Nodup ∧
  st.uniqueRefs.Nodup ∧
  st.uniqueRefs.toFinset = (st.tagRefs.map Prod.snd).toFinset ∧
  (∀ nr ∈ st.tagRefs, nr.2 ∈ st.uniqueRefs ∧ nr.2 ≠ "" ∧ nr.1 ≠ "") ∧
  (∀ na ∈ st.tagAnnots, na.2 ≠ "")

/-- The remote state carries tag `name` exactly in the desired state
`(sha, annot)`: fetching it succeeds and both comparison components hold. -/
def TagMatches (σ : Remote) (name sha annot : String) : Prop :=
  ∃ info, stateFetch σ name = .ok info ∧
    compareTagState sha annot info = (true, true)

/-- One executed tag of a run, bundled with its desired commit SHA and
effective annotation (used to state the idempotence induction). -/
structure ExecItem where
  name : String
  sha : String
  annot : String
  op : TagOperation

/-- The operation of an item is about the item's tag, and (for create and
update) carries the item's desired SHA and annotation. -/
def ExecItemOK (it : ExecItem) : Prop :=
  match it.op with
  | .create b a => b.name = it.name ∧ b.sha = it.sha ∧ a = it.annot
  | .update b a _ _ _ => b.name = it.name ∧ b.sha = it.sha ∧ a = it.annot
  | .skip b _ _ => b.name = it.name

/-! ## Basic lemmas about the list and string helpers -/

theorem lookupA_setA_self {α : Type} (l : List (String × α)) (k : String)
    (v : α) : lookupA (setA l k v) k = some v := by
  induction l with
  | nil => simp [setA, lookupA]
  | cons p rest ih =>
    obtain ⟨k', v'⟩ := p
    by_cases h : k' = k
    · simp [setA, h, lookupA]
    · simp [setA, h, lookupA, ih]

theorem keysOf_cons {α : Type} (p : String × α) (l : List (String × α)) :
    keysOf (p :: l) = p.1 :: keysOf l := rfl

theorem lookupA_setA_ne {α : Type} (l : List (String × α)) (k k' : String)
    (v : α) (h : k' ≠ k) : lookupA (setA l k v) k' = lookupA l k' := by
  induction l with
  | nil =>
    have hk : k ≠ k' := Ne.symm h
    simp [setA, lookupA, hk]
  | cons p rest ih =>
    obtain ⟨k0, v0⟩ := p
    by_cases h0 : k0 = k
    · subst h0
      have hk : k0 ≠ k' := Ne.symm h
      simp [setA, lookupA, hk]
    · simp only [setA, if_neg h0, lookupA]
      by_cases h1 : k0 = k'
      · simp [h1]
      · simp [h1, ih]

theorem lookupA_mem {α : Type} (l : List (String × α)) (k : String) (v : α)
    (h : lookupA l k = some v) : (k, v) ∈ l := by
  induction l with
  | nil => simp [lookupA] at h
  | cons p rest ih =>
    obtain ⟨k0, v0⟩ := p
    by_cases h0 : k0 = k
    · subst h0
      simp [lookupA] at h
      simp [h]
    · simp only [lookupA, if_neg h0] at h
      exact List.mem_cons_of_mem _ (ih h)

theorem lookupA_isSome_of_mem_keys {α : Type} (l : List (String × α))
    (k : String) (h : k ∈ keysOf l) : ∃ v, lookupA l k = some v := by
  induction l with
  | nil => simp [keysOf] at h
  | cons p rest ih =>
    obtain ⟨k0, v0⟩ := p
    by_cases h0 : k0 = k
    · exact ⟨v0, by simp [lookupA, h0]⟩
    · rw [keysOf_cons, List.mem_cons] at h
      rcases h with h | h
      · exact absurd h.symm (by simpa using h0)
      · obtain ⟨v, hv⟩ := ih h
        exact ⟨v, by simp [lookupA, h0, hv]⟩

theorem lookupA_split {α : Type} (l : List (String × α)) (k : String) (v : α)
    (h : lookupA l k = some v) :
    ∃ l1 l2, l = l1 ++ (k, v) :: l2 ∧ ∀ p ∈ l1, p.1 ≠ k := by
  induction l with
  | nil => simp [lookupA] at h
  | cons p rest ih =>
    obtain ⟨k0, v0⟩ := p
    by_cases h0 : k0 = k
    · subst h0
      simp [lookupA] at h
      exact ⟨[], rest, by simp [h], by simp⟩
    · simp only [lookupA, if_neg h0] at h
      obtain ⟨l1, l2, heq, hne⟩ := ih h
      refine ⟨(k0, v0) :: l1, l2, by simp [heq], ?_⟩
      intro q hq
      rcases List.mem_cons.mp hq with h1 | h1
      · simp [h1, h0]
      · exact hne q h1

theorem keysOf_setA_mem {α : Type} (l : List (String × α)) (k : String)
    (v : α) (h : k ∈ keysOf l) : keysOf (setA l k v) = keysOf l := by
  induction l with
  | nil => simp [keysOf] at h
  | cons p rest ih =>
    obtain ⟨k0, v0⟩ := p
    by_cases h0 : k0 = k
    · simp [setA, h0, keysOf]
    · rw [keysOf_cons, List.mem_cons] at h
      rcases h with h | h
      · exact absurd h.symm (by simpa using h0)
      · have := ih h
        simp only [setA, if_neg h0, keysOf_cons, this]

theorem keysOf_setA_not_mem {α : Type} (l : List (String × α)) (k : String)
    (v : α) (h : k ∉ keysOf l) : keysOf (setA l k v) = keysOf l ++ [k] := by
  induction l with
  | nil => simp [setA, keysOf]
  | cons p rest ih =>
    obtain ⟨k0, v0⟩ := p
    rw [keysOf_cons, List.mem_cons] at h
    push_neg at h
    have h0 : k0 ≠ k := fun hk => h.1 hk.symm
    have := ih h.2
    simp only [setA, if_neg h0, keysOf_cons, this, List.cons_append]

theorem values_setA_mem {α : Type} (l : List (String × α)) (k : String)
    (v : α) (h : lookupA l k = some v) :
    (setA l k v).map Prod.snd = l.map Prod.snd := by
  induction l with
  | nil => simp [lookupA] at h
  | cons p rest ih =>
    obtain ⟨k0, v0⟩ := p
    by_cases h0 : k0 = k
    · subst h0
      simp [lookupA] at h
      simp [setA, h]
    · simp only [lookupA, if_neg h0] at h
      simp [setA, h0, ih h]

theorem values_setA_not_mem {α : Type} (l : List (String × α)) (k : String)
    (v : α) (h : k ∉ keysOf l) :
    (setA l k v).map Prod.snd = l.map Prod.snd ++ [v] := by
  induction l with
  | nil => simp [setA]
  | cons p rest ih =>
    obtain ⟨k0, v0⟩ := p
    simp [keysOf] at h
    push_neg at h
    have h0 : k0 ≠ k := fun hk => h.1 hk.symm
    simp [setA, h0]
    exact ih (by simpa [keysOf] using h.2)

theorem mem_setA {α : Type} (l : List (String × α)) (k : String) (v : α)
    (p : String × α) (h : p ∈ setA l k v) : p ∈ l ∨ p = (k, v) := by
  induction l with
  | nil => simp [setA] at h; simp [h]
  | cons q rest ih =>
    obtain ⟨k0, v0⟩ := q
    by_cases h0 : k0 = k
    · subst h0
      simp [setA] at h
      rcases h with h | h
      · right; simp [h]
      · left; exact List.mem_cons_of_mem _ h
    · simp [setA, h0] at h
      rcases h with h | h
      · left; simp [h]
      · rcases ih h with h1 | h1
        · left; exact List.mem_cons_of_mem _ h1
        · right; exact h1

theorem insertU_mem (l : List String) (x y : String) :
    y ∈ insertU l x ↔ y ∈ l ∨ y = x := by
  by_cases h : x ∈ l
  · constructor
    · intro hy; left; simpa [insertU, h] using hy
    · intro hy
      rcases hy with hy | hy
      · simpa [insertU, h] using hy
      · subst hy; simp [insertU, h]
  · simp [insertU, h]

theorem insertU_nodup (l : List String) (x : String) (h : l.Nodup) :
    (insertU l x).Nodup := by
  by_cases hx : x ∈ l
  · simpa [insertU, hx] using h
  · simp only [insertU, if_neg hx]
    refine List.Nodup.append h (by simp) ?_
    intro a ha hax
    rw [List.mem_singleton] at hax
    subst hax
    exact hx ha

theorem insertU_toFinset (l : List String) (x : String) :
    (insertU l x).toFinset = insert x l.toFinset := by
  by_cases hx : x ∈ l
  · have : x ∈ l.toFinset := by simpa using hx
    simp [insertU, hx, Finset.insert_eq_self.mpr this]
  · simp only [insertU, if_neg hx]
    ext y
    simp [or_comm]

/-! ## Lemmas about `mapExcept` and `resolveRefs` -/

theorem mapExcept_ok_forall₂ {α β ε : Type} (f : α → Except ε β)
    (l : List α) (out : List β) (h : mapExcept f l = .ok out) :
    List.Forall₂ (fun a b => f a = .ok b) l out := by
  induction l generalizing out with
  | nil =>
    simp [mapExcept] at h
    subst h
    exact List.Forall₂.nil
  | cons x xs ih =>
    simp only [mapExcept] at h
    cases hx : f x with
    | error e => rw [hx] at h; cases h
    | ok y =>
      rw [hx] at h
      cases hxs : mapExcept f xs with
      | error e => rw [hxs] at h; cases h
      | ok ys =>
        rw [hxs] at h
        injection h with h
        subst h
        exact List.Forall₂.cons hx (ih ys hxs)

theorem mapExcept_ok_of_forall {α β ε : Type} (f : α → Except ε β)
    (l : List α) (P : β → Prop)
    (h : ∀ a ∈ l, ∃ b, f a = .ok b ∧ P b) :
    ∃ out, mapExcept f l = .ok out ∧ out.length = l.length ∧
      ∀ b ∈ out, P b := by
  induction l with
  | nil => exact ⟨[], rfl, rfl, by simp⟩
  | cons x xs ih =>
    obtain ⟨b, hb, hPb⟩ := h x (List.mem_cons_self x xs)
    obtain ⟨out, hout, hlen, hP⟩ := ih (fun a ha => h a (List.mem_cons_of_mem _ ha))
    refine ⟨b :: out, ?_, by simp [hlen], ?_⟩
    · simp [mapExcept, hb, hout]
    · intro c hc
      rcases List.mem_cons.mp hc with hc | hc
      · subst hc; exact hPb
      · exact hP c hc

theorem mapExcept_error_at {α β ε : Type} (f : α → Except ε β)
    (l1 l2 : List α) (x : α) (e : ε)
    (h1 : ∀ a ∈ l1, ∃ b, f a = .ok b) (hx : f x = .error e) :
    mapExcept f (l1 ++ x :: l2) = .error e := by
  induction l1 with
  | nil => simp [mapExcept, hx]
  | cons a l1 ih =>
    obtain ⟨b, hb⟩ := h1 a (List.mem_cons_self a l1)
    have := ih (fun a' ha' => h1 a' (List.mem_cons_of_mem _ ha'))
    simp [mapExcept, hb, this]

theorem resolveRefs_ok_lookup (gc : String → Except ApiError String)
    (refs : List String) (out : List (String × String))
    (h : resolveRefs gc refs = .ok out) :
    ∀ r ∈ refs, ∃ s, gc r = .ok s ∧ lookupA out r = some s := by
  induction refs generalizing out with
  | nil => simp
  | cons r0 rest ih =>
    simp only [resolveRefs] at h
    cases hg : gc r0 with
    | error e => rw [hg] at h; cases h
    | ok sha =>
      rw [hg] at h
      cases hr : resolveRefs gc rest with
      | error e => rw [hr] at h; cases h
      | ok l =>
        rw [hr] at h
        injection h with h
        subst h
        intro r hr'
        rcases List.mem_cons.mp hr' with he | he
        · subst he
          exact ⟨sha, hg, by simp [lookupA]⟩
        · obtain ⟨s, hs1, hs2⟩ := ih l hr r he
          by_cases hrr : r0 = r
          · subst hrr
            exact ⟨sha, hg, by simp [lookupA]⟩
          · exact ⟨s, hs1, by simp [lookupA, hrr, hs2]⟩

theorem resolveRefs_ok_of_forall (gc : String → Except ApiError String)
    (refs : List String) (h : ∀ r ∈ refs, ∃ s, gc r = .ok s) :
    ∃ out, resolveRefs gc refs = .ok out := by
  induction refs with
  | nil => exact ⟨[], rfl⟩
  | cons r0 rest ih =>
    obtain ⟨s, hs⟩ := h r0 (List.mem_cons_self r0 rest)
    obtain ⟨out, hout⟩ := ih (fun r hr => h r (List.mem_cons_of_mem _ hr))
    exact ⟨(r0, s) :: out, by simp [resolveRefs, hs, hout]⟩

/-! ## Lemmas about call traces -/

theorem getCommitRefs_append (c1 c2 : List Call) :
    getCommitRefs (c1 ++ c2) = getCommitRefs c1 ++ getCommitRefs c2 := by
  simp [getCommitRefs]

theorem getCommitRefs_map_getCommit (l : List String) :
    getCommitRefs (l.map Call.getCommit) = l := by
  induction l with
  | nil => rfl
  | cons x xs ih => simp [getCommitRefs, callGetCommitRef] at ih ⊢; exact ih

theorem getCommitRefs_fetchCalls (p : Provider) (n : String) :
    getCommitRefs (fetchCalls p n) = [] := by
  simp only [fetchCalls, getCommitRefs]
  cases h : p.getRef ("tags/" ++ n) with
  | error e => simp [callGetCommitRef]
  | ok obj =>
    by_cases ht : obj.type = "tag" <;> simp [ht, callGetCommitRef]

theorem getCommitRefs_concat_fetch (p : Provider)
    (l : List (String × String)) :
    getCommitRefs (concatAll (l.map (fun nr => fetchCalls p nr.1))) = [] := by
  induction l with
  | nil => rfl
  | cons x xs ih =>
    simp only [List.map_cons, concatAll, getCommitRefs, List.filterMap_append]
    rw [show (fetchCalls p x.1).filterMap callGetCommitRef =
      getCommitRefs (fetchCalls p x.1) from rfl, getCommitRefs_fetchCalls]
    simpa [getCommitRefs] using ih

theorem mutations_map_getCommit (l : List String) :
    (l.map Call.getCommit).filter Call.isMutation = [] := by
  induction l with
  | nil => rfl
  | cons x xs ih => simp [Call.isMutation]

theorem mutations_fetchCalls (p : Provider) (n : String) :
    (fetchCalls p n).filter Call.isMutation = [] := by
  simp only [fetchCalls]
  cases h : p.getRef ("tags/" ++ n) with
  | error e => simp [Call.isMutation]
  | ok obj =>
    by_cases ht : obj.type = "tag" <;> simp [ht, Call.isMutation]

theorem mutations_concat_fetch (p : Provider) (l : List (String × String)) :
    (concatAll (l.map (fun nr => fetchCalls p nr.1))).filter Call.isMutation
      = [] := by
  induction l with
  | nil => rfl
  | cons x xs ih =>
    simp only [List.map_cons, concatAll, List.filter_append,
      mutations_fetchCalls, List.nil_append]
    exact ih

/-! ## Lemmas about `objKey` and synthetic object SHAs -/

theorem strAppend_data (a b : String) : (a ++ b).data = a.data ++ b.data :=
  String.data_append a b

theorem strAppend_left_cancel (s a b : String) (h : s ++ a = s ++ b) :
    a = b := by
  have hd : s.data ++ a.data = s.data ++ b.data := by
    rw [← strAppend_data, ← strAppend_data, h]
  exact String.ext (List.append_cancel_left hd)

theorem objKey_isObjSha (n : Nat) : IsObjSha (objKey n) :=
  ⟨String.mk (List.replicate n 'x'), rfl⟩

theorem objKey_length (n : Nat) : (objKey n).length = 7 + n := by
  have : (objKey n).data = "tagobj-".data ++ List.replicate n 'x' := by
    simp [objKey, strAppend_data]
  simp [String.length, this]
  omega

theorem objKey_inj (m n : Nat) (h : objKey m = objKey n) : m = n := by
  have := congrArg String.length h
  rw [objKey_length, objKey_length] at this
  omega

theorem not_objSha_ne_objKey (s : String) (h : ¬ IsObjSha s) (n : Nat) :
    s ≠ objKey n := by
  intro he
  exact h (he ▸ objKey_isObjSha n)

/-! ## Lemmas about the provider view of a remote state -/

theorem findTagRef_tags (l : List (String × String)) (n : String) :
    findTagRef l ("tags/" ++ n) = (lookupA l n).map (fun v => (n, v)) := by
  induction l with
  | nil => simp [findTagRef, lookupA]
  | cons p rest ih =>
    obtain ⟨k, v⟩ := p
    by_cases h : k = n
    · subst h
      simp [findTagRef, lookupA]
    · have hne : "tags/" ++ k ≠ "tags/" ++ n := by
        intro he
        exact h (strAppend_left_cancel _ _ _ he)
      simp [findTagRef, lookupA, hne, h, ih]

theorem stateFetch_none (σ : Remote) (n : String)
    (h : lookupA σ.refs n = none) :
    stateFetch σ n = .error ⟨some 404, "Not Found"⟩ := by
  simp [stateFetch, fetchTagInfo, Remote.provider, stateGetRef,
    findTagRef_tags, h]

theorem stateFetch_lightweight (σ : Remote) (n t : String)
    (h : lookupA σ.refs n = some t) (ho : lookupA σ.tagObjs t = none) :
    stateFetch σ n = .ok ⟨t, false, none⟩ := by
  simp [stateFetch, fetchTagInfo, Remote.provider, stateGetRef,
    findTagRef_tags, h, stateGetTag, ho]

theorem stateFetch_annotated (σ : Remote) (n t : String) (o : TagObjData)
    (h : lookupA σ.refs n = some t) (ho : lookupA σ.tagObjs t = some o) :
    stateFetch σ n = .ok ⟨o.objectSha, true, some o.message⟩ := by
  simp [stateFetch, fetchTagInfo, Remote.provider, stateGetRef,
    findTagRef_tags, h, stateGetTag, ho]

theorem stateFetch_inv (σ : Remote) (n : String) (info : ExistingTagInfo)
    (h : stateFetch σ n = .ok info) :
    ∃ t, lookupA σ.refs n = some t ∧
      ((lookupA σ.tagObjs t = none ∧ info = ⟨t, false, none⟩) ∨
       (∃ o, lookupA σ.tagObjs t = some o ∧
         info = ⟨o.objectSha, true, some o.message⟩)) := by
  cases hr : lookupA σ.refs n with
  | none => rw [stateFetch_none σ n hr] at h; cases h
  | some t =>
    refine ⟨t, rfl, ?_⟩
    cases ho : lookupA σ.tagObjs t with
    | none =>
      rw [stateFetch_lightweight σ n t hr ho] at h
      injection h with h
      exact Or.inl ⟨rfl, h.symm⟩
    | some o =>
      rw [stateFetch_annotated σ n t o hr ho] at h
      injection h with h
      exact Or.inr ⟨o, rfl, h.symm⟩

theorem fetchTagInfo_provider (σ : Remote)
    (gc : String → Except ApiError String) (n : String) :
    fetchTagInfo (Remote.provider σ gc) n = stateFetch σ n := rfl

theorem checkExistingTag_absent (σ : Remote)
    (gc : String → Except ApiError String) (wm : WhenExistsMode) (n : String)
    (h : lookupA σ.refs n = none) :
    checkExistingTag (Remote.provider σ gc) wm n = .ok none := by
  simp [checkExistingTag, fetchTagInfo_provider, stateFetch_none σ n h]

theorem checkExistingTag_present (σ : Remote)
    (gc : String → Except ApiError String) (wm : WhenExistsMode) (n : String)
    (info : ExistingTagInfo) (h : stateFetch σ n = .ok info) :
    checkExistingTag (Remote.provider σ gc) wm n =
      if wm = .fail then .error (.tagAlreadyExists n) else .ok (some info) := by
  simp [checkExistingTag, fetchTagInfo_provider, h]

/-! ## Parse-state lemmas -/

theorem mem_keys_of_lookupA {α : Type} (l : List (String × α)) (k : String)
    (v : α) (h : lookupA l k = some v) : k ∈ keysOf l := by
  have := lookupA_mem l k v h
  exact List.mem_map.mpr ⟨(k, v), this, rfl⟩

theorem lookupA_none_not_mem_keys {α : Type} (l : List (String × α))
    (k : String) (h : lookupA l k = none) : k ∉ keysOf l := by
  intro hk
  obtain ⟨v, hv⟩ := lookupA_isSome_of_mem_keys l k hk
  rw [h] at hv
  cases hv

theorem parseTagEntry_ok_inv (d : String) (st st' : ParseState) (t : String)
    (h : parseTagEntry d st t = .ok st') :
    (entryName t = "" ∧ st' = st) ∨
    (entryName t ≠ "" ∧
      ∃ r, (r = if strTrim ((strSplitColon t).getD 1 "") ≠ ""
                then strTrim ((strSplitColon t).getD 1 "") else d) ∧
        r ≠ "" ∧
        (lookupA st.tagRefs (entryName t) = none ∨
         lookupA st.tagRefs (entryName t) = some r) ∧
        st' = st.record (entryName t) r (entryAnnot t)) := by
  simp only [parseTagEntry] at h
  by_cases hname : strTrim ((strSplitColon t).getD 0 "") = ""
  · rw [if_pos hname] at h
    by_cases hra : strTrim ((strSplitColon t).getD 1 "") ≠ "" ∨
        strTrim (strJoinColon ((strSplitColon t).drop 2)) ≠ ""
    · rw [if_pos hra] at h; cases h
    · rw [if_neg hra] at h
      injection h with h
      exact Or.inl ⟨hname, h.symm⟩
  · rw [if_neg hname] at h
    by_cases href : (if strTrim ((strSplitColon t).getD 1 "") ≠ ""
        then strTrim ((strSplitColon t).getD 1 "") else d) = ""
    · rw [if_pos href] at h; cases h
    · rw [if_neg href] at h
      cases hlk : lookupA st.tagRefs (strTrim ((strSplitColon t).getD 0 "")) with
      | some r0 =>
        simp only [hlk] at h
        by_cases hdup : r0 ≠ (if strTrim ((strSplitColon t).getD 1 "") ≠ ""
            then strTrim ((strSplitColon t).getD 1 "") else d)
        · rw [if_pos hdup] at h; cases h
        · rw [if_neg hdup] at h
          injection h with h
          push_neg at hdup
          refine Or.inr ⟨hname, _, rfl, href, Or.inr ?_, h.symm⟩
          rw [show entryName t =
            strTrim ((strSplitColon t).getD 0 "") from rfl, hlk, hdup]
      | none =>
        simp only [hlk] at h
        injection h with h
        refine Or.inr ⟨hname, _, rfl, href, Or.inl ?_, h.symm⟩
        rw [show entryName t =
          strTrim ((strSplitColon t).getD 0 "") from rfl, hlk]

theorem record_inv (st : ParseState) (n r a : String) (hinv : ParseInv st)
    (hn : n ≠ "") (hr : r ≠ "")
    (hlk : lookupA st.tagRefs n = none ∨ lookupA st.tagRefs n = some r) :
    ParseInv (st.record n r a) := by
  obtain ⟨hkeys, huniq, hfin, hrefs, hann⟩ := hinv
  refine ⟨?_, insertU_nodup _ _ huniq, ?_, ?_, ?_⟩
  · rcases hlk with hlk | hlk
    · have hnot := lookupA_none_not_mem_keys _ _ hlk
      rw [show (st.record n r a).tagRefs = setA st.tagRefs n r from rfl,
        keysOf_setA_not_mem _ _ _ hnot]
      refine List.Nodup.append hkeys (by simp) ?_
      intro x hx hx'
      rw [List.mem_singleton] at hx'
      subst hx'
      exact hnot hx
    · have hmem := mem_keys_of_lookupA _ _ _ hlk
      rw [show (st.record n r a).tagRefs = setA st.tagRefs n r from rfl,
        keysOf_setA_mem _ _ _ hmem]
      exact hkeys
  · rw [show (st.record n r a).uniqueRefs = insertU st.uniqueRefs r from rfl,
      insertU_toFinset,
      show (st.record n r a).tagRefs = setA st.tagRefs n r from rfl]
    rcases hlk with hlk | hlk
    · have hnot := lookupA_none_not_mem_keys _ _ hlk
      rw [values_setA_not_mem _ _ _ hnot, hfin]
      ext x
      simp [or_comm]
    · rw [values_setA_mem _ _ _ hlk, hfin]
      have : r ∈ st.tagRefs.map Prod.snd :=
        List.mem_map.mpr ⟨(n, r), lookupA_mem _ _ _ hlk, rfl⟩
      rw [Finset.insert_eq_self.mpr (by simpa using this)]
  · intro nr hnr
    rcases mem_setA _ _ _ _ hnr with hm | hm
    · obtain ⟨h1, h2, h3⟩ := hrefs nr hm
      exact ⟨(insertU_mem _ _ _).mpr (Or.inl h1), h2, h3⟩
    · subst hm
      exact ⟨(insertU_mem _ _ _).mpr (Or.inr rfl), hr, hn⟩
  · intro na hna
    by_cases hae : a ≠ ""
    · rw [show (st.record n r a).tagAnnots =
        (if a ≠ "" then setA st.tagAnnots n a else st.tagAnnots) from rfl,
        if_pos hae] at hna
      rcases mem_setA _ _ _ _ hna with hm | hm
      · exact hann na hm
      · subst hm; exact hae
    · rw [show (st.record n r a).tagAnnots =
        (if a ≠ "" then setA st.tagAnnots n a else st.tagAnnots) from rfl,
        if_neg hae] at hna
      exact hann na hna

theorem parseTagEntry_inv (d : String) (st st' : ParseState) (t : String)
    (hinv : ParseInv st) (h : parseTagEntry d st t = .ok st') :
    ParseInv st' := by
  rcases parseTagEntry_ok_inv d st st' t h with ⟨_, he⟩ | ⟨hn, r, _, hr, hlk, he⟩
  · rw [he]; exact hinv
  · rw [he]; exact record_inv st _ r _ hinv hn hr hlk

theorem parseTagsLoop_inv (d : String) (st st' : ParseState)
    (l : List String) (hinv : ParseInv st)
    (h : parseTagsLoop d st l = .ok st') : ParseInv st' := by
  induction l generalizing st with
  | nil =>
    simp only [parseTagsLoop] at h
    injection h with h
    rw [← h]; exact hinv
  | cons t rest ih =>
    simp only [parseTagsLoop] at h
    cases he : parseTagEntry d st t with
    | error e => rw [he] at h; cases h
    | ok st1 =>
      rw [he] at h
      exact ih st1 (parseTagEntry_inv d st st1 t hinv he) h

theorem parseTagSpecs_inv (tags : List String) (d : String)
    (st : ParseState) (h : parseTagSpecs tags d = .ok st) : ParseInv st := by
  refine parseTagsLoop_inv d ⟨[], [], []⟩ st tags ?_ h
  refine ⟨by simp [keysOf], by simp, by simp [keysOf], by simp, by simp⟩

/-! ## Annotation-recording lemmas (for C10) -/

theorem lastAnnot_ne_empty (l : List String) (n a : String)
    (h : lastAnnot l n = some a) : a ≠ "" := by
  induction l with
  | nil => cases h
  | cons t rest ih =>
    simp only [lastAnnot] at h
    cases hr : lastAnnot rest n with
    | some b =>
      rw [hr] at h
      injection h with h
      subst h
      exact ih hr
    | none =>
      rw [hr] at h
      by_cases hc : entryName t = n ∧ entryAnnot t ≠ ""
      · rw [if_pos hc] at h
        injection h with h
        subst h
        exact hc.2
      · rw [if_neg hc] at h
        cases h

theorem parseTagsLoop_annot (d : String) (st st' : ParseState)
    (l : List String) (h : parseTagsLoop d st l = .ok st') (n : String)
    (hn : n ≠ "") :
    lookupA st'.tagAnnots n =
      match lastAnnot l n with
      | some a => some a
      | none => lookupA st.tagAnnots n := by
  induction l generalizing st with
  | nil =>
    simp only [parseTagsLoop] at h
    injection h with h
    rw [← h]
    rfl
  | cons t rest ih =>
    simp only [parseTagsLoop] at h
    cases he : parseTagEntry d st t with
    | error e => rw [he] at h; cases h
    | ok st1 =>
      rw [he] at h
      have hIH := ih st1 h
      simp only [lastAnnot]
      cases hr : lastAnnot rest n with
      | some a =>
        rw [hr] at hIH
        rw [hIH]
      | none =>
        rw [hr] at hIH
        rw [hIH]
        rcases parseTagEntry_ok_inv d st st1 t he with ⟨hne, hst⟩ |
            ⟨hne, r, _, hrr, hlk, hst⟩
        · have hcond : ¬ (entryName t = n ∧ entryAnnot t ≠ "") := by
            intro hc
            exact hn (hc.1.symm.trans hne)
          rw [if_neg hcond, hst]
        · subst hst
          by_cases hae : entryAnnot t ≠ ""
          · by_cases hnn : entryName t = n
            · rw [if_pos ⟨hnn, hae⟩,
                show (st.record (entryName t) r (entryAnnot t)).tagAnnots =
                  (if entryAnnot t ≠ "" then
                    setA st.tagAnnots (entryName t) (entryAnnot t)
                  else st.tagAnnots) from rfl,
                if_pos hae, hnn, lookupA_setA_self]
            · rw [if_neg (by intro hc; exact hnn hc.1),
                show (st.record (entryName t) r (entryAnnot t)).tagAnnots =
                  (if entryAnnot t ≠ "" then
                    setA st.tagAnnots (entryName t) (entryAnnot t)
                  else st.tagAnnots) from rfl,
                if_pos hae,
                lookupA_setA_ne _ _ _ _ (fun hc => hnn hc.symm)]
          · rw [if_neg (by intro hc; exact hae hc.2),
              show (st.record (entryName t) r (entryAnnot t)).tagAnnots =
                (if entryAnnot t ≠ "" then
                  setA st.tagAnnots (entryName t) (entryAnnot t)
                else st.tagAnnots) from rfl,
              if_neg hae]

theorem parseTagSpecs_annot (tags : List String) (d : String)
    (st : ParseState) (h : parseTagSpecs tags d = .ok st) (n : String)
    (hn : n ≠ "") : lookupA st.tagAnnots n = lastAnnot tags n := by
  have := parseTagsLoop_annot d ⟨[], [], []⟩ st tags h n hn
  rw [this]
  cases lastAnnot tags n <;> rfl

/-! ## Execution lemmas -/

theorem wf_lookup_none (σ : Remote) (s : String) (hwf : Remote.WFObjs σ)
    (hfree : ¬ IsObjSha s) : lookupA σ.tagObjs s = none := by
  cases hl : lookupA σ.tagObjs s with
  | none => rfl
  | some o =>
    obtain ⟨k, _, hk⟩ := hwf (s, o) (lookupA_mem _ _ _ hl)
    have hk' : s = objKey k := hk
    rw [hk'] at hfree
    exact absurd (objKey_isObjSha k) hfree

theorem exec_skip_fst (dr : Bool) (b : BaseOperation) (ia : Bool)
    (r : SkipReason) (σ : Remote) :
    (executeTagOperation dr (.skip b ia r) σ).1 = σ := rfl

theorem exec_create_fst (b : BaseOperation) (a : String) (σ : Remote) :
    (executeTagOperation false (.create b a) σ).1 =
      (resolveTargetSHA σ b.name b.sha a).1.setRef b.name
        (resolveTargetSHA σ b.name b.sha a).2.2 := rfl

theorem exec_update_fst (b : BaseOperation) (a es : String) (ia : Bool)
    (rs : List String) (σ : Remote) :
    (executeTagOperation false (.update b a es ia rs) σ).1 =
      (resolveTargetSHA σ b.name b.sha a).1.setRef b.name
        (resolveTargetSHA σ b.name b.sha a).2.2 := by
  simp only [executeTagOperation]
  by_cases h : es == b.sha <;> simp [h]

theorem execOps_cons_fst (dr : Bool) (op : TagOperation)
    (ops : List TagOperation) (σ : Remote) :
    (execOps dr (op :: ops) σ).1 =
      (execOps dr ops (executeTagOperation dr op σ).1).1 := rfl

theorem resolveTarget_empty (σ : Remote) (n sha : String) :
    resolveTargetSHA σ n sha "" = (σ, [], sha) := rfl

theorem resolveTarget_annot (σ : Remote) (n sha a : String) (ha : a ≠ "") :
    resolveTargetSHA σ n sha a =
      ({ σ with tagObjs := (objKey σ.nextId, (⟨a, sha⟩ : TagObjData)) :: σ.tagObjs
                nextId := σ.nextId + 1 },
       [Call.createTag n a sha], objKey σ.nextId) := by
  simp [resolveTargetSHA, ha, Remote.addObj]

theorem setRef_refs (σ : Remote) (n s : String) :
    (Remote.setRef σ n s).refs = setA σ.refs n s := rfl

theorem setRef_tagObjs (σ : Remote) (n s : String) :
    (Remote.setRef σ n s).tagObjs = σ.tagObjs := rfl

theorem setRef_nextId (σ : Remote) (n s : String) :
    (Remote.setRef σ n s).nextId = σ.nextId := rfl

theorem mutState_empty (σ : Remote) (n sha : String) :
    (resolveTargetSHA σ n sha "").1.setRef n
      (resolveTargetSHA σ n sha "").2.2 =
    ⟨setA σ.refs n sha, σ.tagObjs, σ.nextId⟩ := rfl

theorem mutState_annot (σ : Remote) (n sha a : String) (ha : a ≠ "") :
    (resolveTargetSHA σ n sha a).1.setRef n
      (resolveTargetSHA σ n sha a).2.2 =
    ⟨setA σ.refs n (objKey σ.nextId),
     (objKey σ.nextId, (⟨a, sha⟩ : TagObjData)) :: σ.tagObjs,
     σ.nextId + 1⟩ := by
  rw [resolveTarget_annot σ n sha a ha]
  rfl

theorem exec_mut_establishes (σ : Remote) (n sha a : String)
    (hfree : ¬ IsObjSha sha) (hwf : Remote.WFObjs σ) :
    TagMatches ((resolveTargetSHA σ n sha a).1.setRef n
      (resolveTargetSHA σ n sha a).2.2) n sha a := by
  by_cases ha : a = ""
  · subst ha
    rw [mutState_empty]
    refine ⟨⟨sha, false, none⟩, ?_, ?_⟩
    · refine stateFetch_lightweight _ _ _ ?_ ?_
      · exact lookupA_setA_self _ _ _
      · exact wf_lookup_none σ sha hwf hfree
    · simp [compareTagState]
  · rw [mutState_annot σ n sha a ha]
    refine ⟨⟨sha, true, some a⟩, ?_, ?_⟩
    · refine stateFetch_annotated _ _ (objKey σ.nextId) ⟨a, sha⟩ ?_ ?_
      · exact lookupA_setA_self _ _ _
      · simp [lookupA]
    · simp [compareTagState, ha]

theorem wf_exec (σ : Remote) (op : TagOperation) (hwf : Remote.WFObjs σ) :
    Remote.WFObjs (executeTagOperation false op σ).1 ∧
      σ.nextId ≤ (executeTagOperation false op σ).1.nextId := by
  have key : ∀ n sha a, Remote.WFObjs ((resolveTargetSHA σ n sha a).1.setRef n
      (resolveTargetSHA σ n sha a).2.2) ∧
      σ.nextId ≤ ((resolveTargetSHA σ n sha a).1.setRef n
        (resolveTargetSHA σ n sha a).2.2).nextId := by
    intro n sha a
    by_cases ha : a = ""
    · subst ha
      rw [mutState_empty]
      exact ⟨fun p hp => hwf p hp, le_refl _⟩
    · rw [mutState_annot σ n sha a ha]
      constructor
      · intro p hp
        rcases List.mem_cons.mp hp with hp | hp
        · exact ⟨σ.nextId, by dsimp only; omega, by rw [hp]⟩
        · obtain ⟨k, hk1, hk2⟩ := hwf p hp
          exact ⟨k, by dsimp only; omega, hk2⟩
      · dsimp only
        omega
  cases op with
  | create b a => rw [exec_create_fst]; exact key b.name b.sha a
  | update b a es ia rs => rw [exec_update_fst]; exact key b.name b.sha a
  | skip b ia r => rw [exec_skip_fst]; exact ⟨hwf, le_refl _⟩

theorem exec_preserves_matches (σ : Remote) (op : TagOperation)
    (n sha a : String) (hwf : Remote.WFObjs σ) (hfree : ¬ IsObjSha sha)
    (hname : op.opName ≠ n) (hm : TagMatches σ n sha a) :
    TagMatches (executeTagOperation false op σ).1 n sha a := by
  have key : ∀ m sha' a', m ≠ n →
      TagMatches ((resolveTargetSHA σ m sha' a').1.setRef m
        (resolveTargetSHA σ m sha' a').2.2) n sha a := by
    intro m sha' a' hmn
    obtain ⟨info, hfetch, hcmp⟩ := hm
    obtain ⟨t, hrt, hcase⟩ := stateFetch_inv σ n info hfetch
    have hlkp : ∀ x : String,
        lookupA (setA σ.refs m x) n = lookupA σ.refs n :=
      fun x => lookupA_setA_ne σ.refs m n x (Ne.symm hmn)
    by_cases ha' : a' = ""
    · subst ha'
      rw [mutState_empty]
      refine ⟨info, ?_, hcmp⟩
      rcases hcase with ⟨ho, hinfo⟩ | ⟨o, ho, hinfo⟩
      · subst hinfo
        exact stateFetch_lightweight _ _ _ (by rw [hlkp]; exact hrt) ho
      · subst hinfo
        exact stateFetch_annotated _ _ t o (by rw [hlkp]; exact hrt) ho
    · rw [mutState_annot σ m sha' a' ha']
      refine ⟨info, ?_, hcmp⟩
      rcases hcase with ⟨ho, hinfo⟩ | ⟨o, ho, hinfo⟩
      · subst hinfo
        have ht : t = sha := by
          have := congrArg Prod.fst hcmp
          simp [compareTagState] at this
          exact this
        subst ht
        refine stateFetch_lightweight _ _ _ (by rw [hlkp]; exact hrt) ?_
        have hne : objKey σ.nextId ≠ t :=
          Ne.symm (not_objSha_ne_objKey t hfree σ.nextId)
        simp only [lookupA, if_neg hne]
        exact ho
      · subst hinfo
        obtain ⟨k, hk, hkey⟩ := hwf (t, o) (lookupA_mem _ _ _ ho)
        have hkey' : t = objKey k := hkey
        have hne : objKey σ.nextId ≠ t := by
          rw [hkey']
          intro he
          have := objKey_inj _ _ he
          omega
        refine stateFetch_annotated _ _ t o (by rw [hlkp]; exact hrt) ?_
        simp only [lookupA, if_neg hne]
        exact ho
  cases op with
  | skip b ia r => rw [exec_skip_fst]; exact ⟨_, hm.choose_spec.1, hm.choose_spec.2⟩
  | create b a' =>
    rw [exec_create_fst]
    exact key b.name b.sha a' hname
  | update b a' es ia rs =>
    rw [exec_update_fst]
    exact key b.name b.sha a' hname

theorem execOps_establishes (items : List ExecItem) (σ : Remote)
    (hwf : Remote.WFObjs σ)
    (hok : ∀ it ∈ items, ExecItemOK it ∧ ¬ IsObjSha it.sha)
    (hnodup : (items.map ExecItem.name).Nodup)
    (hskip : ∀ it ∈ items, it.op.isSkip = true →
      TagMatches σ it.name it.sha it.annot) :
    Remote.WFObjs (execOps false (items.map ExecItem.op) σ).1 ∧
    (∀ it ∈ items, TagMatches (execOps false (items.map ExecItem.op) σ).1
      it.name it.sha it.annot) ∧
    (∀ n sha a, n ∉ items.map ExecItem.name → ¬ IsObjSha sha →
      TagMatches σ n sha a →
      TagMatches (execOps false (items.map ExecItem.op) σ).1 n sha a) := by
  induction items generalizing σ with
  | nil =>
    refine ⟨hwf, by simp, ?_⟩
    intro n sha a _ _ hm
    exact hm
  | cons it rest ih =>
    have hOK := (hok it (List.mem_cons_self it rest)).1
    simp only [ExecItemOK] at hOK
    have hopname : it.op.opName = it.name := by
      cases hcase : it.op with
      | create b a =>
        simp only [hcase] at hOK
        exact hOK.1
      | update b a es ia rs =>
        simp only [hcase] at hOK
        exact hOK.1
      | skip b ia r =>
        simp only [hcase] at hOK
        exact hOK
    have hfreeIt : ¬ IsObjSha it.sha := (hok it (List.mem_cons_self it rest)).2
    have hwf1 := (wf_exec σ it.op hwf).1
    have hnamesTail : it.name ∉ rest.map ExecItem.name := by
      have := hnodup
      simp only [List.map_cons, List.nodup_cons] at this
      exact this.1
    have hnodupTail : (rest.map ExecItem.name).Nodup := by
      have := hnodup
      simp only [List.map_cons, List.nodup_cons] at this
      exact this.2
    have hskip1 : ∀ it' ∈ rest, it'.op.isSkip = true →
        TagMatches (executeTagOperation false it.op σ).1
          it'.name it'.sha it'.annot := by
      intro it' hm' hsk
      have hdiff : it.op.opName ≠ it'.name := by
        rw [hopname]
        intro he
        exact hnamesTail (he ▸ List.mem_map.mpr ⟨it', hm', rfl⟩)
      exact exec_preserves_matches σ it.op it'.name it'.sha it'.annot hwf
        (hok it' (List.mem_cons_of_mem _ hm')).2 hdiff
        (hskip it' (List.mem_cons_of_mem _ hm') hsk)
    have hIH := ih (executeTagOperation false it.op σ).1 hwf1
      (fun it' hm' => hok it' (List.mem_cons_of_mem _ hm')) hnodupTail hskip1
    obtain ⟨hwfF, hmatchF, hpresF⟩ := hIH
    have hm1 : TagMatches (executeTagOperation false it.op σ).1
        it.name it.sha it.annot := by
      cases hcase : it.op with
      | create b a' =>
        simp only [hcase] at hOK
        rw [exec_create_fst, ← hOK.1, ← hOK.2.1, ← hOK.2.2]
        refine exec_mut_establishes σ b.name b.sha a' ?_ hwf
        rw [hOK.2.1]
        exact hfreeIt
      | update b a' es ia rs =>
        simp only [hcase] at hOK
        rw [exec_update_fst, ← hOK.1, ← hOK.2.1, ← hOK.2.2]
        refine exec_mut_establishes σ b.name b.sha a' ?_ hwf
        rw [hOK.2.1]
        exact hfreeIt
      | skip b ia r =>
        rw [exec_skip_fst]
        exact hskip it (List.mem_cons_self it rest) (by rw [hcase]; rfl)
    have hhead : TagMatches
        (execOps false (rest.map ExecItem.op)
          (executeTagOperation false it.op σ).1).1 it.name it.sha it.annot :=
      hpresF it.name it.sha it.annot hnamesTail hfreeIt hm1
    refine ⟨?_, ?_, ?_⟩
    · rw [List.map_cons, execOps_cons_fst]
      exact hwfF
    · intro it' hm'
      rcases List.mem_cons.mp hm' with he | he
      · subst he
        rw [List.map_cons, execOps_cons_fst]
        exact hhead
      · rw [List.map_cons, execOps_cons_fst]
        exact hmatchF it' he
    · intro n sha a hnin hfree hm
      rw [List.map_cons, execOps_cons_fst]
      have hn1 : n ∉ rest.map ExecItem.name := by
        intro hc
        exact hnin (by simp [hc])
      have hnhead : it.op.opName ≠ n := by
        rw [hopname]
        intro he
        exact hnin (by simp [he])
      exact hpresF n sha a hn1 hfree
        (exec_preserves_matches σ it.op n sha a hwf hfree hnhead hm)

/-! ## Planning inversion lemmas -/

theorem provider_getCommit (σ : Remote)
    (gc : String → Except ApiError String) :
    (Remote.provider σ gc).getCommit = gc := rfl

theorem planTagOperations_ok_inv (p : Provider) (inputs : Inputs)
    (calls : List Call) (ops : List TagOperation)
    (h : planTagOperations p inputs = (calls, .ok ops)) :
    ∃ st refSHAs,
      parseTagSpecs inputs.tags inputs.defaultRef = .ok st ∧
      resolveRefs p.getCommit st.uniqueRefs = .ok refSHAs ∧
      mapExcept (planEntry p inputs st refSHAs) st.tagRefs = .ok ops ∧
      calls = st.uniqueRefs.map Call.getCommit ++
        concatAll (st.tagRefs.map (fun nr => fetchCalls p nr.1)) := by
  unfold planTagOperations at h
  cases hps : parseTagSpecs inputs.tags inputs.defaultRef with
  | error e =>
    simp only [hps, Prod.mk.injEq] at h
    cases h.2
  | ok st =>
    simp only [hps] at h
    cases hrr : resolveRefs p.getCommit st.uniqueRefs with
    | error e =>
      simp only [hrr, Prod.mk.injEq] at h
      cases h.2
    | ok refSHAs =>
      simp only [hrr, Prod.mk.injEq] at h
      exact ⟨st, refSHAs, rfl, hrr, h.2, h.1.symm⟩

theorem planEntry_ok_inv (p : Provider) (inputs : Inputs) (st : ParseState)
    (refSHAs : List (String × String)) (nr : String × String)
    (op : TagOperation) (h : planEntry p inputs st refSHAs nr = .ok op) :
    ∃ ex, checkExistingTag p inputs.whenExists nr.1 = .ok ex ∧
      op = planOneTag inputs.whenExists
        ⟨nr.1, nr.2, (lookupA refSHAs nr.2).getD "", inputs.owner, inputs.repo⟩
        (effAnnot st inputs.annot nr.1) ex := by
  unfold planEntry at h
  cases hc : checkExistingTag p inputs.whenExists nr.1 with
  | error e => rw [hc] at h; cases h
  | ok ex =>
    rw [hc] at h
    injection h with h
    exact ⟨ex, rfl, h.symm⟩

theorem checkExistingTag_ok_some_inv (p : Provider) (wm : WhenExistsMode)
    (n : String) (info : ExistingTagInfo)
    (h : checkExistingTag p wm n = .ok (some info)) :
    fetchTagInfo p n = .ok info := by
  unfold checkExistingTag at h
  cases hf : fetchTagInfo p n with
  | ok info' =>
    simp only [hf] at h
    by_cases hwm : wm = .fail
    · rw [if_pos hwm] at h; cases h
    · rw [if_neg hwm] at h
      injection h with h
      injection h with h
      rw [h]
  | error e =>
    simp only [hf] at h
    cases hs : e.status with
    | none => simp only [hs] at h; cases h
    | some s =>
      simp only [hs] at h
      by_cases h404 : s = 404
      · rw [if_pos h404] at h
        injection h with h
        cases h
      · rw [if_neg h404] at h
        cases h

theorem planOneTag_item_ok (wm : WhenExistsMode) (base : BaseOperation)
    (a : String) (ex : Option ExistingTagInfo) :
    ExecItemOK ⟨base.name, base.sha, a, planOneTag wm base a ex⟩ := by
  cases ex with
  | none => simp [planOneTag, ExecItemOK]
  | some e =>
    by_cases hwm : wm = .skip
    · simp [planOneTag, hwm, ExecItemOK]
    · by_cases hc : ((compareTagState base.sha a e).1 &&
          (compareTagState base.sha a e).2) = true
      · simp [planOneTag, hwm, hc, ExecItemOK]
      · simp [planOneTag, hwm, hc, ExecItemOK]

theorem planOneTag_update_skip_inv (base : BaseOperation) (a : String)
    (ex : ExistingTagInfo) (b' : BaseOperation) (ia' : Bool)
    (r' : SkipReason)
    (h : planOneTag .update base a (some ex) = .skip b' ia' r') :
    compareTagState base.sha a ex = (true, true) := by
  simp only [planOneTag] at h
  rw [if_neg (by decide : ¬ (WhenExistsMode.update = WhenExistsMode.skip))]
    at h
  by_cases hc : ((compareTagState base.sha a ex).1 &&
      (compareTagState base.sha a ex).2) = true
  · rw [Bool.and_eq_true] at hc
    obtain ⟨h1, h2⟩ := hc
    rcases hcc : compareTagState base.sha a ex with ⟨cm, am⟩
    rw [hcc] at h1 h2
    dsimp only at h1 h2
    rw [h1, h2]
  · rw [if_neg hc] at h
    cases h

theorem planOneTag_update_matching (base : BaseOperation) (a : String)
    (ex : ExistingTagInfo)
    (h : compareTagState base.sha a ex = (true, true)) :
    planOneTag .update base a (some ex) =
      .skip base ex.isAnnotated .already_matches := by
  simp only [planOneTag]
  rw [if_neg (by decide : ¬ (WhenExistsMode.update = WhenExistsMode.skip)),
    h]
  rfl

/-! ## Helper lemmas for the idempotence argument -/

theorem forall₂_mem_zip {α β : Type} {R : α → β → Prop} {l₁ : List α}
    {l₂ : List β} (h : List.Forall₂ R l₁ l₂) {a : α} {b : β}
    (hm : (a, b) ∈ l₁.zip l₂) : R a b := by
  induction h with
  | nil => cases hm
  | cons hR hrest ih =>
    rcases List.mem_cons.mp hm with he | he
    · rw [Prod.mk.injEq] at he
      rw [he.1, he.2]
      exact hR
    · exact ih he

theorem mem_zip_left {α β : Type} (l₁ : List α) (l₂ : List β)
    (h : l₁.length = l₂.length) (a : α) (ha : a ∈ l₁) :
    ∃ b, (a, b) ∈ l₁.zip l₂ := by
  induction l₁ generalizing l₂ with
  | nil => cases ha
  | cons x xs ih =>
    cases l₂ with
    | nil => cases h
    | cons y ys =>
      rcases List.mem_cons.mp ha with he | he
      · subst he
        exact ⟨y, by simp⟩
      · obtain ⟨b, hb⟩ := ih ys (by simpa using h) he
        exact ⟨b, List.mem_cons_of_mem _ hb⟩

theorem isSkip_inv (op : TagOperation) (h : op.isSkip = true) :
    ∃ b ia r, op = .skip b ia r := by
  cases op with
  | create b a => cases h
  | update b a es ia rs => cases h
  | skip b ia r => exact ⟨b, ia, r, rfl⟩

theorem isSkipAlready_isSkip (op : TagOperation)
    (h : op.isSkipAlready = true) : op.isSkip = true := by
  cases op with
  | create b a => cases h
  | update b a es ia rs => cases h
  | skip b ia r => rfl

theorem exec_skip_eq (dr : Bool) (b : BaseOperation) (ia : Bool)
    (r : SkipReason) (σ : Remote) :
    ∃ msg, executeTagOperation dr (.skip b ia r) σ = (σ, [], [msg]) := by
  cases r with
  | when_exists_skip => exact ⟨_, rfl⟩
  | already_matches => exact ⟨_, rfl⟩

theorem execOps_skips (dr : Bool) (ops : List TagOperation) (σ : Remote)
    (h : ∀ op ∈ ops, op.isSkip = true) :
    (execOps dr ops σ).1 = σ ∧ (execOps dr ops σ).2.1 = [] := by
  induction ops generalizing σ with
  | nil => exact ⟨rfl, rfl⟩
  | cons op rest ih =>
    obtain ⟨b, ia, r, he⟩ := isSkip_inv op (h op (List.mem_cons_self op rest))
    subst he
    obtain ⟨msg, hmsg⟩ := exec_skip_eq dr b ia r σ
    have hih := ih σ (fun op' h' => h op' (List.mem_cons_of_mem _ h'))
    simp only [execOps, hmsg]
    exact ⟨hih.1, by simp [hih.2]⟩

theorem items_of_forall₂ (shaOf : String → String) (annOf : String → String)
    {R : (String × String) → TagOperation → Prop}
    {l : List (String × String)} {ops : List TagOperation}
    (h : List.Forall₂ R l ops) :
    ∃ items : List ExecItem,
      items.map ExecItem.op = ops ∧
      items.map ExecItem.name = keysOf l ∧
      (∀ it ∈ items, ∃ nr op, nr ∈ l ∧ R nr op ∧
        it = ⟨nr.1, shaOf nr.2, annOf nr.1, op⟩) ∧
      (∀ nr ∈ l, ∃ op, R nr op ∧
        (⟨nr.1, shaOf nr.2, annOf nr.1, op⟩ : ExecItem) ∈ items) := by
  induction h with
  | nil => exact ⟨[], rfl, rfl, by simp, by simp⟩
  | @cons a b l' ops' hR hrest ih =>
    obtain ⟨items, h1, h2, h3, h4⟩ := ih
    refine ⟨⟨a.1, shaOf a.2, annOf a.1, b⟩ :: items,
      by simp [h1], by simp [keysOf_cons, h2], ?_, ?_⟩
    · intro it hit
      rcases List.mem_cons.mp hit with he | he
      · exact ⟨a, b, List.mem_cons_self _ _, hR, he⟩
      · obtain ⟨nr, op, hnr, hRop, heq⟩ := h3 it he
        exact ⟨nr, op, List.mem_cons_of_mem _ hnr, hRop, heq⟩
    · intro nr hnr
      rcases List.mem_cons.mp hnr with he | he
      · subst he
        exact ⟨b, hR, List.mem_cons_self _ _⟩
      · obtain ⟨op, hRop, hm⟩ := h4 nr he
        exact ⟨op, hRop, List.mem_cons_of_mem _ hm⟩

/-- Claim C3: re-running reconciliation with unchanged desired state
(exists-policy `update`, dry-run off) after executing the first run's plan
yields a successful second run whose operations are all
`Skip(already_matches)`, one per desired tag, and the remote state is
unchanged by the second run. -/
theorem claim_C3_idempotence
    (gc : String → Except ApiError String) (inputs : Inputs)
    (σ σf : Remote) (calls1 : List Call) (ops1 : List TagOperation)
    (hwm : inputs.whenExists = .update)
    (hdry : inputs.dryRun = false)
    (hfree : ∀ r s, gc r = .ok s → ¬ IsObjSha s)
    (hwf : Remote.WFObjs σ)
    (hrun : runAction gc inputs σ = (σf, calls1, .ok ops1)) :
    ∃ calls2 ops2,
      runAction gc inputs σf = (σf, calls2, .ok ops2) ∧
      ops2.length = ops1.length ∧
      ops2.all TagOperation.isSkipAlready = true := by
  unfold runAction at hrun
  rcases hp : planTagOperations (Remote.provider σ gc) inputs with ⟨calls0, res⟩
  cases res with
  | error e =>
    simp only [hp, Prod.mk.injEq] at hrun
    cases hrun.2.2
  | ok ops =>
    simp only [hp, Prod.mk.injEq] at hrun
    obtain ⟨hσf, hcalls, hops⟩ := hrun
    injection hops with hops
    subst hops
    rw [hdry] at hσf
    obtain ⟨st, refSHAs, hps, hrr, hmap, hcallseq⟩ :=
      planTagOperations_ok_inv _ _ _ _ hp
    rw [provider_getCommit] at hrr
    obtain ⟨hkeysN, huniqN, hfin, hrefs, hann⟩ := parseTagSpecs_inv _ _ _ hps
    have hforall := mapExcept_ok_forall₂ _ _ _ hmap
    obtain ⟨items, hiop, hiname, hichar, hicov⟩ := items_of_forall₂
      (fun r => (lookupA refSHAs r).getD "")
      (fun n => effAnnot st inputs.annot n) hforall
    have hShaFree : ∀ nr ∈ st.tagRefs,
        ¬ IsObjSha ((lookupA refSHAs nr.2).getD "") := by
      intro nr hnr
      obtain ⟨s, hgc, hlk⟩ := resolveRefs_ok_lookup gc st.uniqueRefs refSHAs
        hrr nr.2 (hrefs nr hnr).1
      rw [hlk]
      exact hfree nr.2 s hgc
    have hok : ∀ it ∈ items, ExecItemOK it ∧ ¬ IsObjSha it.sha := by
      intro it hit
      obtain ⟨nr, op, hnr, hRop, heq⟩ := hichar it hit
      obtain ⟨ex, hcheck, hopeq⟩ := planEntry_ok_inv _ _ _ _ _ _ hRop
      subst heq
      constructor
      · rw [hopeq]
        exact planOneTag_item_ok inputs.whenExists
          ⟨nr.1, nr.2, (lookupA refSHAs nr.2).getD "", inputs.owner,
            inputs.repo⟩ (effAnnot st inputs.annot nr.1) ex
      · exact hShaFree nr hnr
    have hnodup : (items.map ExecItem.name).Nodup := by
      rw [hiname]
      exact hkeysN
    have hskip : ∀ it ∈ items, it.op.isSkip = true →
        TagMatches σ it.name it.sha it.annot := by
      intro it hit hsk
      obtain ⟨nr, op, hnr, hRop, heq⟩ := hichar it hit
      obtain ⟨ex, hcheck, hopeq⟩ := planEntry_ok_inv _ _ _ _ _ _ hRop
      subst heq
      rw [hopeq] at hsk ⊢
      cases ex with
      | none =>
        rw [show planOneTag inputs.whenExists
          ⟨nr.1, nr.2, (lookupA refSHAs nr.2).getD "", inputs.owner,
            inputs.repo⟩ (effAnnot st inputs.annot nr.1) none =
          .create ⟨nr.1, nr.2, (lookupA refSHAs nr.2).getD "", inputs.owner,
            inputs.repo⟩ (effAnnot st inputs.annot nr.1) from rfl] at hsk
        cases hsk
      | some info =>
        rw [hwm] at hsk hcheck ⊢
        obtain ⟨b', ia', r', hske⟩ := isSkip_inv _ hsk
        have hcmp := planOneTag_update_skip_inv _ _ _ _ _ _ hske
        have hfetch := checkExistingTag_ok_some_inv _ _ _ _ hcheck
        rw [fetchTagInfo_provider] at hfetch
        exact ⟨info, hfetch, hcmp⟩
    obtain ⟨hwfF, hmatchF, _⟩ :=
      execOps_establishes items σ hwf hok hnodup hskip
    rw [hiop] at hmatchF
    have hmatchAll : ∀ nr ∈ st.tagRefs,
        TagMatches σf nr.1 ((lookupA refSHAs nr.2).getD "")
          (effAnnot st inputs.annot nr.1) := by
      intro nr hnr
      obtain ⟨op, _, hm⟩ := hicov nr hnr
      have := hmatchF _ hm
      rw [hσf] at this
      exact this
    have hplan2 := mapExcept_ok_of_forall
      (planEntry (Remote.provider σf gc) inputs st refSHAs) st.tagRefs
      (fun op => op.isSkipAlready = true) ?_
    · obtain ⟨ops2, hmap2, hlen2, hP2⟩ := hplan2
      have hplanEq : planTagOperations (Remote.provider σf gc) inputs =
          (st.uniqueRefs.map Call.getCommit ++
            concatAll (st.tagRefs.map
              (fun nr => fetchCalls (Remote.provider σf gc) nr.1)),
           mapExcept (planEntry (Remote.provider σf gc) inputs st refSHAs)
             st.tagRefs) := by
        unfold planTagOperations
        simp only [hps, provider_getCommit, hrr]
      refine ⟨(st.uniqueRefs.map Call.getCommit ++
          concatAll (st.tagRefs.map
            (fun nr => fetchCalls (Remote.provider σf gc) nr.1))) ++
          (execOps inputs.dryRun ops2 σf).2.1, ops2, ?_, ?_, ?_⟩
      · unfold runAction
        rw [hplanEq, hmap2]
        have hallskip : ∀ op ∈ ops2, op.isSkip = true :=
          fun op hop => isSkipAlready_isSkip op (hP2 op hop)
        have hexec := execOps_skips inputs.dryRun ops2 σf hallskip
        rw [Prod.mk.injEq, Prod.mk.injEq]
        exact ⟨hexec.1, rfl, rfl⟩
      · rw [hlen2, List.Forall₂.length_eq hforall]
      · exact List.all_eq_true.mpr (fun op hop => hP2 op hop)
    · intro nr hnr
      obtain ⟨info, hfetch, hcmp⟩ := hmatchAll nr hnr
      have hcheck2 : checkExistingTag (Remote.provider σf gc)
          inputs.whenExists nr.1 = .ok (some info) := by
        rw [checkExistingTag_present σf gc inputs.whenExists nr.1 info hfetch,
          if_neg (by rw [hwm]; decide)]
      refine ⟨planOneTag inputs.whenExists
        ⟨nr.1, nr.2, (lookupA refSHAs nr.2).getD "", inputs.owner,
          inputs.repo⟩ (effAnnot st inputs.annot nr.1) (some info), ?_, ?_⟩
      · unfold planEntry
        rw [hcheck2]
      · rw [hwm, planOneTag_update_matching _ _ _ hcmp]
        rfl

/-- Witness for C3 at a concrete two-tag run (one lightweight create, one
annotated create) against an initially empty remote. -/
theorem claim_C3_idempotence_witness :
    ∃ calls2 ops2,
      runAction
        (fun r => if r = "main" then .ok "c1" else .error ⟨some 404, "nf"⟩)
        ⟨["v1:main", "v2:main:Release 1"], "", .update, "", false, "o", "r"⟩
        (⟨[("v1", "c1"), ("v2", objKey 0)],
          [(objKey 0, ⟨"Release 1", "c1"⟩)], 1⟩ : Remote) =
        ((⟨[("v1", "c1"), ("v2", objKey 0)],
          [(objKey 0, ⟨"Release 1", "c1"⟩)], 1⟩ : Remote), calls2,
          .ok ops2) ∧
      ops2.length =
        ([TagOperation.create ⟨"v1", "main", "c1", "o", "r"⟩ "",
          TagOperation.create ⟨"v2", "main", "c1", "o", "r"⟩
            "Release 1"]).length ∧
      ops2.all TagOperation.isSkipAlready = true := by
  refine claim_C3_idempotence
    (fun r => if r = "main" then .ok "c1" else .error ⟨some 404, "nf"⟩)
    ⟨["v1:main", "v2:main:Release 1"], "", .update, "", false, "o", "r"⟩
    ⟨[], [], 0⟩
    (⟨[("v1", "c1"), ("v2", objKey 0)],
      [(objKey 0, ⟨"Release 1", "c1"⟩)], 1⟩ : Remote)
    [Call.getCommit "main", Call.getRef "tags/v1", Call.getRef "tags/v2",
      Call.createRef "refs/tags/v1" "c1",
      Call.createTag "v2" "Release 1" "c1",
      Call.createRef "refs/tags/v2" (objKey 0)]
    [TagOperation.create ⟨"v1", "main", "c1", "o", "r"⟩ "",
      TagOperation.create ⟨"v2", "main", "c1", "o", "r"⟩ "Release 1"]
    rfl rfl ?_ ?_ (by decide)
  · intro r s h hobj
    simp only [] at h
    by_cases hr : r = "main"
    · rw [if_pos hr] at h
      injection h with h
      obtain ⟨t, ht⟩ := hobj
      rw [← h] at ht
      have hlen := congrArg String.length ht
      rw [String.length_append] at hlen
      have h1 : ("c1" : String).length = 2 := rfl
      have h2 : ("tagobj-" : String).length = 7 := rfl
      omega
    · rw [if_neg hr] at h
      cases h
  · intro p hp
    cases hp

/-! ## Claim C1 -/

theorem compareTagState_true_iff (sha a : String) (ex : ExistingTagInfo) :
    compareTagState sha a ex = (true, true) ↔
      (ex.commitSHA = sha ∧ annotMatchesSpec a ex) := by
  unfold compareTagState annotMatchesSpec
  rw [Prod.mk.injEq]
  cases hia : ex.isAnnotated <;>
    simp [hia, Bool.and_eq_true, Bool.or_eq_true, beq_iff_eq, bne_iff_ne]

/-- Claim C1: the planner produces exactly one operation per desired tag,
and the per-tag decision is: Create when the provider reported not-found;
Skip with the policy-skip reason under the `skip` policy; under the
`update` policy a Skip with reason `already_matches` exactly when the
existing commit SHA equals the resolved SHA and the annotation matches
((annotated, non-empty, equal message) or (lightweight, empty)), and
otherwise an Update. -/
theorem claim_C1_planner_decision :
    (∀ (p : Provider) (inputs : Inputs) (st : ParseState)
        (ops : List TagOperation) (calls : List Call),
      parseTagSpecs inputs.tags inputs.defaultRef = .ok st →
      planTagOperations p inputs = (calls, .ok ops) →
      ops.length = st.tagRefs.length) ∧
    (∀ (wm : WhenExistsMode) (base : BaseOperation) (a : String),
      planOneTag wm base a none = .create base a) ∧
    (∀ (base : BaseOperation) (a : String) (ex : ExistingTagInfo),
      planOneTag .skip base a (some ex) =
        .skip base ex.isAnnotated .when_exists_skip) ∧
    (∀ (base : BaseOperation) (a : String) (ex : ExistingTagInfo),
      planOneTag .update base a (some ex) =
          .skip base ex.isAnnotated .already_matches ↔
        (ex.commitSHA = base.sha ∧ annotMatchesSpec a ex)) ∧
    (∀ (base : BaseOperation) (a : String) (ex : ExistingTagInfo),
      ¬ (ex.commitSHA = base.sha ∧ annotMatchesSpec a ex) →
      planOneTag .update base a (some ex) =
        .update base a ex.commitSHA ex.isAnnotated
          (getUpdateReasons base.sha a ex)) := by
  refine ⟨?_, ?_, ?_, ?_, ?_⟩
  · intro p inputs st ops calls hps h
    obtain ⟨st', refSHAs, hps', _, hmap, _⟩ :=
      planTagOperations_ok_inv p inputs calls ops h
    rw [hps] at hps'
    injection hps' with hst
    subst hst
    exact (List.Forall₂.length_eq (mapExcept_ok_forall₂ _ _ _ hmap)).symm
  · intro wm base a
    rfl
  · intro base a ex
    simp [planOneTag]
  · intro base a ex
    constructor
    · intro h
      exact (compareTagState_true_iff base.sha a ex).mp
        (planOneTag_update_skip_inv base a ex _ _ _ h)
    · intro h
      exact planOneTag_update_matching base a ex
        ((compareTagState_true_iff base.sha a ex).mpr h)
  · intro base a ex h
    have hne : compareTagState base.sha a ex ≠ (true, true) :=
      fun hc => h ((compareTagState_true_iff base.sha a ex).mp hc)
    simp only [planOneTag]
    rw [if_neg (by decide : ¬ (WhenExistsMode.update = WhenExistsMode.skip))]
    rw [if_neg ?_]
    intro hc
    rw [Bool.and_eq_true] at hc
    rcases hcc : compareTagState base.sha a ex with ⟨cm, am⟩
    rw [hcc] at hc
    dsimp only at hc
    rw [hc.1, hc.2] at hcc
    exact hne hcc

/-- Witness for C1 at concrete inputs: a one-tag plan yields exactly one
operation, and a non-matching existing tag under the `update` policy
yields an Update operation. -/
theorem claim_C1_planner_decision_witness :
    ([TagOperation.create ⟨"v1", "main", "c1", "o", "r"⟩ ""]).length =
      (ParseState.mk ["main"] [("v1", "main")] []).tagRefs.length ∧
    planOneTag .update ⟨"v1", "main", "c1", "o", "r"⟩ "m"
        (some ⟨"old", false, none⟩) =
      .update ⟨"v1", "main", "c1", "o", "r"⟩ "m" "old" false
        (getUpdateReasons "c1" "m" ⟨"old", false, none⟩) := by
  constructor
  · exact claim_C1_planner_decision.1
      ⟨fun _ => .ok "c1", fun _ => .error ⟨some 404, "nf"⟩,
        fun _ => .error ⟨some 404, "nf"⟩⟩
      ⟨["v1:main"], "", .update, "", false, "o", "r"⟩
      (ParseState.mk ["main"] [("v1", "main")] [])
      [TagOperation.create ⟨"v1", "main", "c1", "o", "r"⟩ ""]
      [Call.getCommit "main", Call.getRef "tags/v1"]
      (by decide) (by decide)
  · refine claim_C1_planner_decision.2.2.2.2
      ⟨"v1", "main", "c1", "o", "r"⟩ "m" ⟨"old", false, none⟩ ?_
    intro hc
    exact absurd hc.1 (by decide)

/-! ## Claim C4 -/

theorem getCommitRefs_exec (dr : Bool) (op : TagOperation) (σ : Remote) :
    getCommitRefs (executeTagOperation dr op σ).2.1 = [] := by
  cases op with
  | skip b ia r => rfl
  | create b a =>
    cases dr with
    | true => rfl
    | false =>
      by_cases ha : a = ""
      · subst ha
        rfl
      · rw [show (executeTagOperation false (.create b a) σ).2.1 =
          (resolveTargetSHA σ b.name b.sha a).2.1 ++
            [Call.createRef ("refs/tags/" ++ b.name)
              (resolveTargetSHA σ b.name b.sha a).2.2] from rfl,
          resolveTarget_annot σ b.name b.sha a ha]
        rfl
  | update b a es ia rs =>
    cases dr with
    | true => rfl
    | false =>
      by_cases ha : a = ""
      · subst ha
        rfl
      · rw [show (executeTagOperation false (.update b a es ia rs) σ).2.1 =
          (resolveTargetSHA σ b.name b.sha a).2.1 ++
            [Call.updateRef ("tags/" ++ b.name)
              (resolveTargetSHA σ b.name b.sha a).2.2] from rfl,
          resolveTarget_annot σ b.name b.sha a ha]
        rfl

theorem getCommitRefs_execOps (dr : Bool) (ops : List TagOperation)
    (σ : Remote) : getCommitRefs (execOps dr ops σ).2.1 = [] := by
  induction ops generalizing σ with
  | nil => rfl
  | cons op rest ih =>
    rw [show (execOps dr (op :: rest) σ).2.1 =
      (executeTagOperation dr op σ).2.1 ++
        (execOps dr rest (executeTagOperation dr op σ).1).2.1 from rfl,
      getCommitRefs_append, getCommitRefs_exec, ih]
    rfl

/-- Claim C4: when the tag specs parse successfully, a run issues exactly
one ref-to-commit resolution (`getCommit`) call per distinct effective
ref, in `Set` insertion order: the `getCommit` calls of the whole run are
exactly the duplicate-free `uniqueRefs` list, whose underlying set is the
set of effective refs of the desired tags, so their number is the number
M of distinct effective refs regardless of the number N of tags. -/
theorem claim_C4_ref_resolution_dedup
    (gc : String → Except ApiError String) (inputs : Inputs) (σ : Remote)
    (st : ParseState)
    (hps : parseTagSpecs inputs.tags inputs.defaultRef = .ok st) :
    getCommitRefs (runAction gc inputs σ).2.1 = st.uniqueRefs ∧
    st.uniqueRefs.Nodup ∧
    st.uniqueRefs.toFinset = (st.tagRefs.map Prod.snd).toFinset ∧
    (getCommitRefs (runAction gc inputs σ).2.1).length =
      ((st.tagRefs.map Prod.snd).dedup).length := by
  obtain ⟨hkeysN, huniqN, hfin, hrefs, hann⟩ := parseTagSpecs_inv _ _ _ hps
  have hmain : getCommitRefs (runAction gc inputs σ).2.1 = st.uniqueRefs := by
    unfold runAction
    rcases hp : planTagOperations (Remote.provider σ gc) inputs
      with ⟨calls0, res⟩
    have hp' := hp
    unfold planTagOperations at hp'
    simp only [hps] at hp'
    cases hrr : resolveRefs (Remote.provider σ gc).getCommit st.uniqueRefs with
    | error e =>
      simp only [hrr, Prod.mk.injEq] at hp'
      cases res with
      | error e' =>
        rw [← hp'.1]
        exact getCommitRefs_map_getCommit st.uniqueRefs
      | ok ops => cases hp'.2
    | ok refSHAs =>
      simp only [hrr, Prod.mk.injEq] at hp'
      have hcalls0 : getCommitRefs calls0 = st.uniqueRefs := by
        rw [← hp'.1, getCommitRefs_append, getCommitRefs_map_getCommit,
          getCommitRefs_concat_fetch, List.append_nil]
      cases res with
      | error e' => exact hcalls0
      | ok ops =>
        rw [getCommitRefs_append, hcalls0, getCommitRefs_execOps,
          List.append_nil]
  refine ⟨hmain, huniqN, hfin, ?_⟩
  rw [hmain]
  have h1 : st.uniqueRefs.length = st.uniqueRefs.toFinset.card :=
    (List.toFinset_card_of_nodup huniqN).symm
  have h2 : ((st.tagRefs.map Prod.snd).dedup).length =
      ((st.tagRefs.map Prod.snd).dedup).toFinset.card :=
    (List.toFinset_card_of_nodup (List.nodup_dedup _)).symm
  have h3 : ((st.tagRefs.map Prod.snd).dedup).toFinset =
      (st.tagRefs.map Prod.snd).toFinset := by
    ext x
    simp [List.mem_dedup]
  rw [h1, h2, h3, hfin]

/-- Witness for C4 at concrete inputs: three tags over two distinct
effective refs make exactly two `getCommit` calls. -/
theorem claim_C4_ref_resolution_dedup_witness :
    getCommitRefs (runAction
      (fun r => if r = "main" then .ok "c1" else .ok "c2")
      ⟨["v1:main", "v2:dev", "v3:main"], "", .update, "", false, "o", "r"⟩
      ⟨[], [], 0⟩).2.1 = ["main", "dev"] ∧
    (["main", "dev"] : List String).Nodup ∧
    (["main", "dev"] : List String).toFinset =
      ((ParseState.mk ["main", "dev"]
        [("v1", "main"), ("v2", "dev"), ("v3", "main")] []).tagRefs.map
          Prod.snd).toFinset ∧
    (getCommitRefs (runAction
      (fun r => if r = "main" then .ok "c1" else .ok "c2")
      ⟨["v1:main", "v2:dev", "v3:main"], "", .update, "", false, "o", "r"⟩
      ⟨[], [], 0⟩).2.1).length =
      (((ParseState.mk ["main", "dev"]
        [("v1", "main"), ("v2", "dev"), ("v3", "main")] []).tagRefs.map
          Prod.snd).dedup).length :=
  claim_C4_ref_resolution_dedup
    (fun r => if r = "main" then .ok "c1" else .ok "c2")
    ⟨["v1:main", "v2:dev", "v3:main"], "", .update, "", false, "o", "r"⟩
    ⟨[], [], 0⟩
    (ParseState.mk ["main", "dev"]
      [("v1", "main"), ("v2", "dev"), ("v3", "main")] [])
    (by decide)

/-! ## Claim C7 -/

/-- Claim C7: executing any planned operation in dry-run mode issues no
remote call of any kind (in particular no `createRef`, `updateRef` or
`createTag`), leaves the remote state untouched, and logs exactly the one
planned action with the `[dry-run] ` prefix. -/
theorem claim_C7_dry_run_no_mutation (op : TagOperation) (σ : Remote) :
    (executeTagOperation true op σ).1 = σ ∧
    (executeTagOperation true op σ).2.1 = [] ∧
    ∃ m, (executeTagOperation true op σ).2.2 = ["[dry-run] " ++ m] := by
  cases op with
  | skip b ia r => exact ⟨rfl, rfl, _, rfl⟩
  | create b a => exact ⟨rfl, rfl, _, rfl⟩
  | update b a es ia rs => exact ⟨rfl, rfl, _, rfl⟩

/-! ## Claim C2 -/

theorem stateFetch_ok_of_present (σ : Remote) (n t : String)
    (h : lookupA σ.refs n = some t) :
    ∃ info, stateFetch σ n = .ok info := by
  cases ho : lookupA σ.tagObjs t with
  | none => exact ⟨_, stateFetch_lightweight σ n t h ho⟩
  | some o => exact ⟨_, stateFetch_annotated σ n t o h ho⟩

/-- Claim C2: under the `fail` policy, if one desired tag already exists
in the remote repository (and every other desired tag does not), the
whole run aborts with that tag's already-exists error, the remote state
is untouched, and not a single mutating call (`createRef`, `updateRef`,
`createTag`) is issued — including for tags that do not exist yet and
would otherwise have been created. -/
theorem claim_C2_fail_policy_global_abort
    (gc : String → Except ApiError String) (inputs : Inputs) (σ : Remote)
    (st : ParseState) (name r0 : String)
    (hwm : inputs.whenExists = .fail)
    (hps : parseTagSpecs inputs.tags inputs.defaultRef = .ok st)
    (hres : ∀ r ∈ st.uniqueRefs, ∃ s, gc r = .ok s)
    (hlk : lookupA st.tagRefs name = some r0)
    (hex : ∃ t, lookupA σ.refs name = some t)
    (hothers : ∀ nr ∈ st.tagRefs, nr.1 ≠ name →
      lookupA σ.refs nr.1 = none) :
    (runAction gc inputs σ).1 = σ ∧
    (runAction gc inputs σ).2.2 = .error (.tagAlreadyExists name) ∧
    (runAction gc inputs σ).2.1.filter Call.isMutation = [] ∧
    (PlanError.tagAlreadyExists name).message =
      "Tag " ++ name ++ " already exists." := by
  obtain ⟨refSHAs, hrr⟩ := resolveRefs_ok_of_forall gc st.uniqueRefs hres
  obtain ⟨t, ht⟩ := hex
  obtain ⟨info, hfetch⟩ := stateFetch_ok_of_present σ name t ht
  have hcheckname : checkExistingTag (Remote.provider σ gc)
      inputs.whenExists name = .error (.tagAlreadyExists name) := by
    rw [checkExistingTag_present σ gc inputs.whenExists name info hfetch,
      if_pos hwm]
  have hentryname : planEntry (Remote.provider σ gc) inputs st refSHAs
      (name, r0) = .error (.tagAlreadyExists name) := by
    unfold planEntry
    rw [hcheckname]
  obtain ⟨l1, l2, hsplit, hneq⟩ := lookupA_split st.tagRefs name r0 hlk
  have hok1 : ∀ nr ∈ l1, ∃ b,
      planEntry (Remote.provider σ gc) inputs st refSHAs nr = .ok b := by
    intro nr hnr
    have hne : nr.1 ≠ name := hneq nr hnr
    have hnrmem : nr ∈ st.tagRefs := by
      rw [hsplit]
      exact List.mem_append_left _ hnr
    have habs := hothers nr hnrmem hne
    refine ⟨planOneTag inputs.whenExists
      ⟨nr.1, nr.2, (lookupA refSHAs nr.2).getD "", inputs.owner,
        inputs.repo⟩ (effAnnot st inputs.annot nr.1) none, ?_⟩
    unfold planEntry
    rw [checkExistingTag_absent σ gc inputs.whenExists nr.1 habs]
  have hmapE : mapExcept (planEntry (Remote.provider σ gc) inputs st refSHAs)
      st.tagRefs = .error (.tagAlreadyExists name) := by
    rw [hsplit]
    exact mapExcept_error_at _ l1 l2 (name, r0) _ hok1 hentryname
  have hplan : planTagOperations (Remote.provider σ gc) inputs =
      (st.uniqueRefs.map Call.getCommit ++
        concatAll (st.tagRefs.map
          (fun nr => fetchCalls (Remote.provider σ gc) nr.1)),
       .error (.tagAlreadyExists name)) := by
    unfold planTagOperations
    simp only [hps, provider_getCommit, hrr, hmapE]
  unfold runAction
  rw [hplan]
  refine ⟨rfl, rfl, ?_, rfl⟩
  rw [List.filter_append, mutations_map_getCommit, mutations_concat_fetch]
  rfl

/-- Witness for C2: three desired tags, only the middle one pre-exists,
policy `fail` — the run aborts with its conflict and issues no mutating
call. -/
theorem claim_C2_fail_policy_global_abort_witness :
    (runAction (fun r => if r = "main" then .ok "c1" else .ok "c2")
      ⟨["v1:main", "v2:main", "v3:main"], "", .fail, "", false, "o", "r"⟩
      ⟨[("v2", "old")], [], 0⟩).1 = ⟨[("v2", "old")], [], 0⟩ ∧
    (runAction (fun r => if r = "main" then .ok "c1" else .ok "c2")
      ⟨["v1:main", "v2:main", "v3:main"], "", .fail, "", false, "o", "r"⟩
      ⟨[("v2", "old")], [], 0⟩).2.2 = .error (.tagAlreadyExists "v2") ∧
    (runAction (fun r => if r = "main" then .ok "c1" else .ok "c2")
      ⟨["v1:main", "v2:main", "v3:main"], "", .fail, "", false, "o", "r"⟩
      ⟨[("v2", "old")], [], 0⟩).2.1.filter Call.isMutation = [] ∧
    (PlanError.tagAlreadyExists "v2").message =
      "Tag " ++ "v2" ++ " already exists." := by
  refine claim_C2_fail_policy_global_abort
    (fun r => if r = "main" then .ok "c1" else .ok "c2")
    ⟨["v1:main", "v2:main", "v3:main"], "", .fail, "", false, "o", "r"⟩
    ⟨[("v2", "old")], [], 0⟩
    (ParseState.mk ["main"]
      [("v1", "main"), ("v2", "main"), ("v3", "main")] [])
    "v2" "main" rfl (by decide) ?_ (by decide) ⟨"old", by decide⟩ (by decide)
  intro r hr
  rw [List.mem_singleton] at hr
  subst hr
  exact ⟨"c1", rfl⟩

/-! ## Claim C5 -/

theorem parseTagEntry_two_field (d : String) (st : ParseState)
    (e n r : String) (hs : strSplitColon e = [n, r]) (hn : strTrim n = n)
    (hr : strTrim r = r) (hnne : n ≠ "")
    (heff : (if r ≠ "" then r else d) ≠ "") :
    parseTagEntry d st e =
      match lookupA st.tagRefs n with
      | some r0 =>
        if r0 ≠ (if r ≠ "" then r else d) then
          .error (.duplicateTag n r0 (if r ≠ "" then r else d))
        else .ok (st.record n (if r ≠ "" then r else d) "")
      | none => .ok (st.record n (if r ≠ "" then r else d) "") := by
  simp only [parseTagEntry]
  rw [hs]
  rw [show ([n, r] : List String).getD 0 "" = n from rfl,
    show ([n, r] : List String).getD 1 "" = r from rfl,
    show strJoinColon (([n, r] : List String).drop 2) = "" from rfl,
    show strTrim "" = "" from rfl, hn, hr]
  rw [if_neg hnne, if_neg heff]

/-- Claim C5: when one run's tag specs contain the same tag name twice
with different effective refs (explicit, or the default when the entry's
ref field is empty), parsing fails with the duplicate-tag conflict error
naming both refs, before any remote call is made; a repeated occurrence
with an identical effective ref is not an error and yields a single
desired tag for that name. -/
theorem claim_C5_duplicate_name
    (p : Provider) (inputs : Inputs) (e1 e2 n r1 r2 eff1 eff2 : String)
    (hs1 : strSplitColon e1 = [n, r1])
    (hs2 : strSplitColon e2 = [n, r2])
    (hn : strTrim n = n) (hr1 : strTrim r1 = r1) (hr2 : strTrim r2 = r2)
    (hnne : n ≠ "")
    (he1 : eff1 = if r1 ≠ "" then r1 else inputs.defaultRef)
    (he2 : eff2 = if r2 ≠ "" then r2 else inputs.defaultRef)
    (heff1 : eff1 ≠ "") (heff2 : eff2 ≠ "")
    (htags : inputs.tags = [e1, e2]) :
    (eff1 ≠ eff2 →
      parseTagSpecs inputs.tags inputs.defaultRef =
        .error (.duplicateTag n eff1 eff2) ∧
      (planTagOperations p inputs).1 = [] ∧
      (PlanError.duplicateTag n eff1 eff2).message =
        "Duplicate tag " ++ n ++ " with different refs: " ++ eff1 ++
          " and " ++ eff2) ∧
    (eff1 = eff2 →
      parseTagSpecs inputs.tags inputs.defaultRef =
        .ok ⟨[eff1], [(n, eff1)], []⟩) := by
  have hstep1 : parseTagEntry inputs.defaultRef ⟨[], [], []⟩ e1 =
      .ok ⟨[eff1], [(n, eff1)], []⟩ := by
    rw [parseTagEntry_two_field inputs.defaultRef ⟨[], [], []⟩ e1 n r1 hs1
      hn hr1 hnne (he1 ▸ heff1)]
    rw [show lookupA (⟨[], [], []⟩ : ParseState).tagRefs n = none from rfl]
    rw [← he1]
    have hrec : (⟨[], [], []⟩ : ParseState).record n eff1 "" =
        ⟨[eff1], [(n, eff1)], []⟩ := by
      simp [ParseState.record, insertU, setA]
    rw [hrec]
  have hlk1 : lookupA ((⟨[eff1], [(n, eff1)], []⟩ : ParseState)).tagRefs n =
      some eff1 := by
    simp [lookupA]
  constructor
  · intro hne
    have hstep2 : parseTagEntry inputs.defaultRef
        ⟨[eff1], [(n, eff1)], []⟩ e2 = .error (.duplicateTag n eff1 eff2) := by
      rw [parseTagEntry_two_field inputs.defaultRef _ e2 n r2 hs2 hn hr2
        hnne (he2 ▸ heff2)]
      simp only [hlk1, ← he2]
      rw [if_pos hne]
    have hparse : parseTagSpecs inputs.tags inputs.defaultRef =
        .error (.duplicateTag n eff1 eff2) := by
      rw [htags]
      unfold parseTagSpecs parseTagsLoop
      rw [hstep1]
      unfold parseTagsLoop
      rw [hstep2]
    refine ⟨hparse, ?_, rfl⟩
    unfold planTagOperations
    rw [hparse]
  · intro heq
    have hstep2 : parseTagEntry inputs.defaultRef
        ⟨[eff1], [(n, eff1)], []⟩ e2 = .ok ⟨[eff1], [(n, eff1)], []⟩ := by
      rw [parseTagEntry_two_field inputs.defaultRef _ e2 n r2 hs2 hn hr2
        hnne (he2 ▸ heff2)]
      simp only [hlk1, ← he2]
      rw [if_neg (by rw [heq]; exact fun hc => hc rfl)]
      have hrec : (⟨[eff1], [(n, eff1)], []⟩ : ParseState).record n eff2 ""
          = ⟨[eff1], [(n, eff1)], []⟩ := by
        rw [← heq]
        simp [ParseState.record, insertU, setA]
      rw [hrec]
    rw [htags]
    unfold parseTagSpecs parseTagsLoop
    rw [hstep1]
    unfold parseTagsLoop
    rw [hstep2]
    rfl

/-- Witness for C5: `v1:main` twice parses to one desired tag, and
`v1:main` with `v1:develop` fails with the conflict naming both refs. -/
theorem claim_C5_duplicate_name_witness :
    (("main" : String) ≠ "develop" →
      parseTagSpecs (Inputs.tags
          ⟨["v1:main", "v1:develop"], "", .update, "", false, "o", "r"⟩) "" =
        .error (.duplicateTag "v1" "main" "develop") ∧
      (planTagOperations
        ⟨fun _ => .ok "c1", fun _ => .error ⟨some 404, "nf"⟩,
          fun _ => .error ⟨some 404, "nf"⟩⟩
        ⟨["v1:main", "v1:develop"], "", .update, "", false, "o", "r"⟩).1
        = [] ∧
      (PlanError.duplicateTag "v1" "main" "develop").message =
        "Duplicate tag " ++ "v1" ++ " with different refs: " ++ "main" ++
          " and " ++ "develop") ∧
    (("main" : String) = "develop" →
      parseTagSpecs (Inputs.tags
          ⟨["v1:main", "v1:develop"], "", .update, "", false, "o", "r"⟩) "" =
        .ok ⟨["main"], [("v1", "main")], []⟩) := by
  exact claim_C5_duplicate_name
    ⟨fun _ => .ok "c1", fun _ => .error ⟨some 404, "nf"⟩,
      fun _ => .error ⟨some 404, "nf"⟩⟩
    ⟨["v1:main", "v1:develop"], "", .update, "", false, "o", "r"⟩
    "v1:main" "v1:develop" "v1" "main" "develop" "main" "develop"
    (by decide) (by decide) (by decide) (by decide) (by decide)
    (by decide) (by decide) (by decide) (by decide) (by decide) rfl

/-! ## Claim C6 -/

theorem parse_single_annot (d e n r : String) (rest : List String)
    (hs : strSplitColon e = n :: r :: rest)
    (hn : strTrim n = n) (hr : strTrim r = r) (hnne : n ≠ "")
    (heff : (if r ≠ "" then r else d) ≠ "") :
    parseTagSpecs [e] d = .ok
      ⟨[if r ≠ "" then r else d], [(n, if r ≠ "" then r else d)],
       if strTrim (strJoinColon rest) ≠ ""
       then [(n, strTrim (strJoinColon rest))] else []⟩ := by
  have hentry : parseTagEntry d ⟨[], [], []⟩ e = .ok
      ⟨[if r ≠ "" then r else d], [(n, if r ≠ "" then r else d)],
       if strTrim (strJoinColon rest) ≠ ""
       then [(n, strTrim (strJoinColon rest))] else []⟩ := by
    simp only [parseTagEntry]
    rw [hs, show (n :: r :: rest).getD 0 "" = n from rfl,
      show (n :: r :: rest).getD 1 "" = r from rfl,
      show (n :: r :: rest).drop 2 = rest from rfl, hn, hr]
    rw [if_neg hnne, if_neg heff]
    rfl
  simp only [parseTagSpecs, parseTagsLoop, hentry]

/-- Counterexample for C6 as stated: for the entry `v1:main: x`,
everything after the second colon is `" x"` (with its leading space), but
the recorded annotation is the trimmed `"x"` — the annotation is not kept
verbatim. -/
theorem claim_C6_annotation_counterexample :
    parseTagSpecs ["v1:main: x"] "d" =
      .ok ⟨["main"], [("v1", "main")], [("v1", "x")]⟩ ∧
    strJoinColon ((strSplitColon "v1:main: x").drop 2) = " x" ∧
    ("x" : String) ≠ " x" := by
  refine ⟨by decide, by decide, by decide⟩

/-- Claim C6 as amended: only the first two colons are structural;
everything after the second colon, including any colons it contains, is
joined back and becomes the annotation after trimming surrounding
whitespace (not fully verbatim); in particular the entry
`v1:main:Release: version 1.0.0` yields the annotation exactly
`Release: version 1.0.0`. -/
theorem claim_C6_annotation_amended
    (d e n r : String) (rest : List String)
    (hs : strSplitColon e = n :: r :: rest)
    (hn : strTrim n = n) (hr : strTrim r = r) (hnne : n ≠ "")
    (heff : (if r ≠ "" then r else d) ≠ "") :
    (∃ st, parseTagSpecs [e] d = .ok st ∧
      lookupA st.tagAnnots n =
        (if strTrim (strJoinColon rest) ≠ ""
         then some (strTrim (strJoinColon rest)) else none)) ∧
    (∃ st, parseTagSpecs ["v1:main:Release: version 1.0.0"] d = .ok st ∧
      lookupA st.tagAnnots "v1" = some "Release: version 1.0.0") := by
  constructor
  · refine ⟨_, parse_single_annot d e n r rest hs hn hr hnne heff, ?_⟩
    by_cases hA : strTrim (strJoinColon rest) ≠ ""
    · rw [if_pos hA, if_pos hA]
      simp [lookupA]
    · rw [if_neg hA, if_neg hA]
      rfl
  · exact ⟨⟨["main"], [("v1", "main")],
      [("v1", "Release: version 1.0.0")]⟩, rfl, rfl⟩

/-- Witness for the amended C6 at the concrete example entry. -/
theorem claim_C6_annotation_amended_witness :
    (∃ st, parseTagSpecs ["v1:main:Release: version 1.0.0"] "x" = .ok st ∧
      lookupA st.tagAnnots "v1" =
        (if strTrim (strJoinColon ["Release", " version 1.0.0"]) ≠ ""
         then some (strTrim (strJoinColon ["Release", " version 1.0.0"]))
         else none)) ∧
    (∃ st, parseTagSpecs ["v1:main:Release: version 1.0.0"] "x" = .ok st ∧
      lookupA st.tagAnnots "v1" = some "Release: version 1.0.0") :=
  claim_C6_annotation_amended "x" "v1:main:Release: version 1.0.0" "v1"
    "main" ["Release", " version 1.0.0"] (by decide) (by decide) (by decide)
    (by decide) (by decide)

/-! ## Claim C8 -/

/-- Claim C8: `deriveTags` renders the template with the parsed semver
components (numeric components stringified, so `0` is truthy in
conditionals), splits the rendered text on commas/newlines, trims each
entry, and discards entries that are empty or equal to the bare prefix.
The four conjuncts check the two examples of the claim, the 0-is-truthy
rule, and the dropping of empty and bare-prefix entries.  (The template
braces are written with character escapes.) -/
theorem claim_C8_derive_tags :
    deriveTags "v1.2.3"
      "\x7b\x7bprefix\x7d\x7d\x7b\x7bmajor\x7d\x7d,\x7b\x7bprefix\x7d\x7d\x7b\x7bmajor\x7d\x7d.\x7b\x7bminor\x7d\x7d"
      = .ok ["v1", "v1.2"] ∧
    deriveTags "v1.2.3-beta.1"
      "\x7b\x7bprefix\x7d\x7d\x7b\x7bmajor\x7d\x7d\x7b\x7b#if prerelease\x7d\x7d-\x7b\x7bprerelease\x7d\x7d\x7b\x7b/if\x7d\x7d"
      = .ok ["v1-beta.1"] ∧
    deriveTags "v1.0.0"
      "\x7b\x7bprefix\x7d\x7d\x7b\x7bmajor\x7d\x7d\x7b\x7b#if minor\x7d\x7d.\x7b\x7bminor\x7d\x7d\x7b\x7b/if\x7d\x7d"
      = .ok ["v1.0"] ∧
    deriveTags "v1.2.3"
      "\x7b\x7bprefix\x7d\x7d\x7b\x7bmajor\x7d\x7d,,\x7b\x7bprefix\x7d\x7d"
      = .ok ["v1"] := by
  refine ⟨by decide, by decide, by decide, by decide⟩

/-! ## Claim C9 -/

/-- Counterexample for C9 as stated: a fetch failure carrying no provider
status (the `else throw error` branch of the catch) propagates unchanged,
with message `boom` — it is not wrapped into a tag-inspection error naming
the tag `v1`. -/
theorem claim_C9_inspection_counterexample :
    (planTagOperations
      ⟨fun _ => .ok "c1", fun _ => .error ⟨none, "boom"⟩,
        fun _ => .error ⟨none, "boom"⟩⟩
      ⟨["v1:main"], "", .update, "", false, "o", "r"⟩).2 =
      .error (.raw ⟨none, "boom"⟩) ∧
    (PlanError.raw ⟨none, "boom"⟩).message = "boom" := by
  refine ⟨by decide, rfl⟩

/-- Claim C9 as amended: a provider failure with status 404 during the
existence check is treated as "does not exist yet" and yields a Create
plan; a failure carrying any other status is wrapped as a tag-inspection
error naming the tag and carrying the cause's message, aborting that
tag's planning (and hence the run); a failure carrying no status at all
is rethrown unchanged, without naming the tag. -/
theorem claim_C9_inspection_amended :
    (∀ (p : Provider) (wm : WhenExistsMode) (n : String) (e : ApiError),
      fetchTagInfo p n = .error e → e.status = some 404 →
      checkExistingTag p wm n = .ok none) ∧
    (∀ (wm : WhenExistsMode) (base : BaseOperation) (a : String),
      planOneTag wm base a none = .create base a) ∧
    (∀ (p : Provider) (wm : WhenExistsMode) (n : String) (e : ApiError)
        (s : Nat),
      fetchTagInfo p n = .error e → e.status = some s → s ≠ 404 →
      checkExistingTag p wm n = .error (.tagCheckFailed n e) ∧
      (PlanError.tagCheckFailed n e).message =
        "Failed to check if tag " ++ n ++ " exists: " ++ e.message) ∧
    (∀ (p : Provider) (wm : WhenExistsMode) (n : String) (e : ApiError),
      fetchTagInfo p n = .error e → e.status = none →
      checkExistingTag p wm n = .error (.raw e)) ∧
    (∀ (p : Provider) (inputs : Inputs) (st : ParseState)
        (refSHAs : List (String × String)) (nr : String × String)
        (err : PlanError),
      checkExistingTag p inputs.whenExists nr.1 = .error err →
      planEntry p inputs st refSHAs nr = .error err) := by
  refine ⟨?_, ?_, ?_, ?_, ?_⟩
  · intro p wm n e hf hs
    simp only [checkExistingTag, hf, hs]
    rw [if_pos trivial]
  · intro wm base a
    rfl
  · intro p wm n e s hf hs h404
    simp only [checkExistingTag, hf, hs]
    rw [if_neg h404]
    exact ⟨rfl, rfl⟩
  · intro p wm n e hf hs
    simp only [checkExistingTag, hf, hs]
  · intro p inputs st refSHAs nr err hcheck
    simp only [planEntry, hcheck]

/-- Witness for the amended C9 at concrete providers: a 404 yields "no
existing state", a 500 is wrapped naming the tag, a status-less error is
rethrown raw. -/
theorem claim_C9_inspection_amended_witness :
    checkExistingTag
      ⟨fun _ => .ok "c1", fun _ => .error ⟨some 404, "nf"⟩,
        fun _ => .error ⟨some 404, "nf"⟩⟩ .update "v1" = .ok none ∧
    (checkExistingTag
      ⟨fun _ => .ok "c1", fun _ => .error ⟨some 500, "boom"⟩,
        fun _ => .error ⟨some 500, "boom"⟩⟩ .update "v1" =
      .error (.tagCheckFailed "v1" ⟨some 500, "boom"⟩) ∧
      (PlanError.tagCheckFailed "v1" ⟨some 500, "boom"⟩).message =
        "Failed to check if tag " ++ "v1" ++ " exists: " ++ "boom") ∧
    checkExistingTag
      ⟨fun _ => .ok "c1", fun _ => .error ⟨none, "boom"⟩,
        fun _ => .error ⟨none, "boom"⟩⟩ .update "v1" =
      .error (.raw ⟨none, "boom"⟩) := by
  refine ⟨?_, ?_, ?_⟩
  · exact claim_C9_inspection_amended.1
      ⟨fun _ => .ok "c1", fun _ => .error ⟨some 404, "nf"⟩,
        fun _ => .error ⟨some 404, "nf"⟩⟩ .update "v1" ⟨some 404, "nf"⟩
      (by decide) rfl
  · exact claim_C9_inspection_amended.2.2.1
      ⟨fun _ => .ok "c1", fun _ => .error ⟨some 500, "boom"⟩,
        fun _ => .error ⟨some 500, "boom"⟩⟩ .update "v1"
      ⟨some 500, "boom"⟩ 500 (by decide) rfl (by decide)
  · exact claim_C9_inspection_amended.2.2.2.1
      ⟨fun _ => .ok "c1", fun _ => .error ⟨none, "boom"⟩,
        fun _ => .error ⟨none, "boom"⟩⟩ .update "v1" ⟨none, "boom"⟩
      (by decide) rfl

/-! ## Claim C10 -/

/-- Claim C10: across repeated occurrences of a tag name, only
occurrences whose annotation component is non-empty overwrite the stored
per-tag annotation (an empty or absent annotation does not clear it), and
a name that never received a non-empty per-tag annotation gets the
run-wide default annotation as its effective annotation. -/
theorem claim_C10_annotation_last_nonempty
    (tags : List String) (d : String) (st : ParseState)
    (defAnnot : String) (n : String)
    (hps : parseTagSpecs tags d = .ok st) (hn : n ≠ "") :
    lookupA st.tagAnnots n = lastAnnot tags n ∧
    effAnnot st defAnnot n = (lastAnnot tags n).getD defAnnot := by
  have hmain := parseTagSpecs_annot tags d st hps n hn
  refine ⟨hmain, ?_⟩
  simp only [effAnnot, hmain]
  cases hL : lastAnnot tags n with
  | none => simp
  | some a =>
    have ha := lastAnnot_ne_empty tags n a hL
    simp [ha]

/-- Witness for C10: `v1` gets `first` from its first occurrence; the
second occurrence of `v1` with no annotation does not clear it; `v2`
never receives one and falls back to the default. -/
theorem claim_C10_annotation_last_nonempty_witness :
    (lookupA (ParseState.mk ["main"] [("v1", "main"), ("v2", "main")]
        [("v1", "first")]).tagAnnots "v1" =
      lastAnnot ["v1:main:first", "v1:main", "v2:main"] "v1" ∧
    effAnnot (ParseState.mk ["main"] [("v1", "main"), ("v2", "main")]
        [("v1", "first")]) "dflt" "v1" =
      (lastAnnot ["v1:main:first", "v1:main", "v2:main"] "v1").getD
        "dflt") ∧
    (lookupA (ParseState.mk ["main"] [("v1", "main"), ("v2", "main")]
        [("v1", "first")]).tagAnnots "v2" =
      lastAnnot ["v1:main:first", "v1:main", "v2:main"] "v2" ∧
    effAnnot (ParseState.mk ["main"] [("v1", "main"), ("v2", "main")]
        [("v1", "first")]) "dflt" "v2" =
      (lastAnnot ["v1:main:first", "v1:main", "v2:main"] "v2").getD
        "dflt") := by
  constructor
  · exact claim_C10_annotation_last_nonempty
      ["v1:main:first", "v1:main", "v2:main"] "x"
      (ParseState.mk ["main"] [("v1", "main"), ("v2", "main")]
        [("v1", "first")]) "dflt" "v1" (by decide) (by decide)
  · exact claim_C10_annotation_last_nonempty
      ["v1:main:first", "v1:main", "v2:main"] "x"
      (ParseState.mk ["main"] [("v1", "main"), ("v2", "main")]
        [("v1", "first")]) "dflt" "v2" (by decide) (by decide)
